import Mathlib

/-!
Shallow embedding of the gyb code-generation, synchronization, pruning and
verification core of `build-script.py`, together with theorems about its
testable properties. External subprocesses (the gyb renderer, `rsync`, `rm`,
`diff`) are modelled as explicit parameters or, where the behaviour that
decides a property lives in the external tool, as definitions taken from the
specification (marked `Modelled from the spec`). Directories are flat
association lists from file name to file content and modification time.
-/

namespace BuildScript

/-- Python `s.endswith(post)`, on code points. -/
def strEndsWith (s post : String) : Bool := post.data.isSuffixOf s.data

/-- Python slicing `s[:-n]` (drop the last `n` code points), as in
`gyb_file[:-4]` of `generate_gyb_files_helper`. -/
def strDropRight (s : String) (n : Nat) : String := ⟨s.data.take (s.data.length - n)⟩

/-- Python `s.startswith(pre)`; used to model `diff --exclude .*`. -/
def strStartsWith (s pre : String) : Bool := pre.data.isPrefixOf s.data

/-- A file on disk: byte content plus modification time. -/
structure File where
  content : String
  mtime : Nat
deriving DecidableEq, Repr

/-- A flat directory: an association list from file name to file. -/
abbrev Dir := List (String × File)

/-- Look a file up by name. -/
def getFile : Dir → String → Option File
  | [], _ => none
  | (m, f) :: d, n => if m = n then some f else getFile d n

/-- Write a file, replacing an existing entry of the same name in place. -/
def setFile : Dir → String → File → Dir
  | [], n, f => [(n, f)]
  | (m, g) :: d, n, f => if m = n then (n, f) :: d else (m, g) :: setFile d n f

/-- Delete a file by name. -/
def delFile : Dir → String → Dir
  | [], _ => []
  | p :: d, n => if p.1 = n then delFile d n else p :: delFile d n

/-- The directory listing, as `os.listdir` returns it. -/
def names (d : Dir) : List String := d.map Prod.fst

/-- Python `subprocess.CalledProcessError`: the command that was invoked and
its captured output, as raised by `check_call` on a non-zero exit. -/
structure CalledProcessError where
  cmd : List String
  output : String
deriving DecidableEq, Repr

/-- Modelled from the spec: the external gyb Template Renderer invocation,
`render(templatePath, outputPath, flags[]) -> exit code + combined output`.
A deterministic function from the full command line to either the rendered
content of the output file or a process failure. -/
abbrev Gyb := List String → Except CalledProcessError String

/-- The external `rm` subprocess run by the pruners, as a function from the
name of the file being removed to success or a `CalledProcessError`. -/
abbrev Rm := String → Except CalledProcessError Unit

/-- Python `tempfile.gettempdir()`: one process-wide temporary directory
path, the same value at every call site and in every run. -/
def tempfile_gettempdir : String := "/tmp"

/-- Python `os.path.join` for the paths used here. -/
def os_path_join (a b : String) : String := a ++ "/" ++ b

/-- Lines 159-161: gyb adds source locations by default; passing
`--line-directive=` clears them, and the flag of this script is the reverse. -/
def line_directive_flags (add_source_locations : Bool) : List String :=
  if add_source_locations then [] else ["--line-directive="]

/-- Lines 164-172: the gyb command built by `generate_single_gyb_file`; the
`-o` argument is the scratch path inside `tempfile.gettempdir()`. -/
def gyb_command (gyb_exec gyb_file output_file_name : String)
    (add_source_locations : Bool) (additional_gyb_flags : List String) : List String :=
  ["python3", gyb_exec, gyb_file, "-o", os_path_join tempfile_gettempdir output_file_name]
    ++ line_directive_flags add_source_locations ++ additional_gyb_flags

/-- The outcome of one `rsync --checksum` synchronization. -/
inductive SyncOutcome where
  | Changed
  | Unchanged
deriving DecidableEq, Repr

/-- Modelled from the spec: the external `rsync --checksum scratch dest`
invocation of `generate_single_gyb_file` (lines 178-185). It compares the two
files by content checksum, treats an absent destination as differing, copies
scratch over destination (with a fresh modification time) only on a checksum
mismatch, and leaves the destination file untouched otherwise. -/
def rsync_checksum (scratch : File) (dest : Option File) (now : Nat) : File × SyncOutcome :=
  match dest with
  | none => (⟨scratch.content, now⟩, .Changed)
  | some d =>
    if d.content = scratch.content then (d, .Unchanged)
    else (⟨scratch.content, now⟩, .Changed)

/-- The mutable state threaded through one renderer/synchronizer step: the
contents of `tempfile.gettempdir()`, the contents of the destination
directory, and a clock supplying fresh modification times. -/
structure SyncState where
  temp : Dir
  dest : Dir
  now : Nat
deriving DecidableEq, Repr

/-- Lines 148-185: render one template into the scratch directory via the gyb
subprocess, then hand off to `rsync --checksum` against the destination. A
renderer failure propagates as the `CalledProcessError` of `check_call`. -/
def generate_single_gyb_file (gyb : Gyb) (gyb_exec gyb_file output_file_name : String)
    (add_source_locations : Bool) (additional_gyb_flags : List String) (st : SyncState) :
    Except CalledProcessError (SyncState × SyncOutcome) :=
  match gyb (gyb_command gyb_exec gyb_file output_file_name add_source_locations
      additional_gyb_flags) with
  | .error e => .error e
  | .ok content =>
    let scratch : File := ⟨content, st.now⟩
    let sync := rsync_checksum scratch (getFile st.dest output_file_name) (st.now + 1)
    .ok (⟨setFile st.temp output_file_name scratch,
          setFile st.dest output_file_name sync.1,
          st.now + 2⟩, sync.2)

/-- Lines 369-382, inner loop: iterate over the snapshot of
`os.listdir(destination_dir)`; every `.swift` entry whose `<name>.gyb`
template does not exist in the sources directory is removed with
`check_call(["rm", ...])`, whose failure propagates immediately. -/
def clear_gyb_files_loop (rm : Rm) (sources_listing : List String) :
    List String → Dir → Except CalledProcessError Dir
  | [], dest => .ok dest
  | f :: fs, dest =>
    if strEndsWith f ".swift" then
      if (f ++ ".gyb") ∈ sources_listing then
        clear_gyb_files_loop rm sources_listing fs dest
      else
        match rm f with
        | .error e => .error e
        | .ok _ => clear_gyb_files_loop rm sources_listing fs (delFile dest f)
    else
      clear_gyb_files_loop rm sources_listing fs dest

/-- Lines 369-382: remove generated files whose template no longer exists. -/
def clear_gyb_files_from_previous_run (rm : Rm) (sources_listing : List String) (dest : Dir) :
    Except CalledProcessError Dir :=
  clear_gyb_files_loop rm sources_listing (names dest) dest

/-- One template source tree handled by `generate_gyb_files_helper`: the
sources directory path, its listing, and its destination directory. -/
structure Tree where
  path : String
  listing : List String
  dest : Dir
deriving DecidableEq, Repr

/-- Line 231: the templates discovered in a sources directory. -/
def gyb_files (listing : List String) : List String :=
  listing.filter (fun f => strEndsWith f ".gyb")

/-- Lines 210-225: the per-template closure submitted to the thread pool; the
output name is the template name with `.gyb` sliced off. -/
def generate_gyb_file (gyb : Gyb) (gyb_exec sources_path : String)
    (add_source_locations : Bool) (f : String) (st : SyncState) :
    Except CalledProcessError (SyncState × SyncOutcome) :=
  generate_single_gyb_file gyb gyb_exec (os_path_join sources_path f) (strDropRight f 4)
    add_source_locations [] st

/-- Lines 232-233: `ThreadPoolExecutor().map(generate_gyb_file, gyb_files)`.
Every task runs to completion regardless of sibling failures; each outcome or
exception is stored in the Future of its task. The tasks of a well-formed run
write disjoint files, so the pool is modelled as a left-to-right traversal. -/
def executor_map_gyb (gyb : Gyb) (gyb_exec sources_path : String)
    (add_source_locations : Bool) :
    List String → SyncState → SyncState × List (String × Except CalledProcessError SyncOutcome)
  | [], st => (st, [])
  | f :: fs, st =>
    match generate_gyb_file gyb gyb_exec sources_path add_source_locations f st with
    | .error e =>
      let r := executor_map_gyb gyb gyb_exec sources_path add_source_locations fs st
      (r.1, (f, .error e) :: r.2)
    | .ok (st1, oc) =>
      let r := executor_map_gyb gyb gyb_exec sources_path add_source_locations fs st1
      (r.1, (f, .ok oc) :: r.2)

/-- Lines 192-233 of `generate_gyb_files_helper`, with the per-task futures
exposed: prune relics of the previous run, then fan every discovered template
out to the pool. -/
def generate_gyb_files_helper_run (gyb : Gyb) (rm : Rm) (gyb_exec : String)
    (add_source_locations : Bool) (t : Tree) (temp : Dir) (now : Nat) :
    Except CalledProcessError
      ((Tree × Dir × Nat) × List (String × Except CalledProcessError SyncOutcome)) :=
  match clear_gyb_files_from_previous_run rm t.listing t.dest with
  | .error e => .error e
  | .ok dest1 =>
    let r := executor_map_gyb gyb gyb_exec t.path add_source_locations
      (gyb_files t.listing) ⟨temp, dest1, now⟩
    .ok ((⟨t.path, t.listing, r.1.dest⟩, r.1.temp, r.1.now), r.2)

/-- What the Python `generate_gyb_files_helper` observably produces: line 233
never consumes the iterator returned by `executor.map`, so the futures, and
any exceptions stored in them, are discarded at this point. -/
def generate_gyb_files_helper (gyb : Gyb) (rm : Rm) (gyb_exec : String)
    (add_source_locations : Bool) (t : Tree) (temp : Dir) (now : Nat) :
    Except CalledProcessError (Tree × Dir × Nat) :=
  (generate_gyb_files_helper_run gyb rm gyb_exec add_source_locations t temp now).map (·.1)

/-- Lines 38-45: the fixed allow-list of base-kind file names. -/
def BASE_KIND_FILES : List (String × String) :=
  [("Decl", "SyntaxDeclNodes.swift"), ("Expr", "SyntaxExprNodes.swift"),
   ("Pattern", "SyntaxPatternNodes.swift"), ("Stmt", "SyntaxStmtNodes.swift"),
   ("Syntax", "SyntaxNodes.swift"), ("Type", "SyntaxTypeNodes.swift")]

/-- Lines 267-269: the single multi-output template. -/
def SYNTAX_NODES_TEMPLATE : String := "Sources/SwiftSyntax/SyntaxNodes.swift.gyb.template"

/-- Lines 255-262: the pruning loop of `generate_syntax_node_template_gyb_files`;
every `.swift` file of the template destination that is not in the allow-list
`BASE_KIND_FILES.values()` is removed. -/
def prune_syntax_node_files_loop (rm : Rm) :
    List String → Dir → Except CalledProcessError Dir
  | [], d => .ok d
  | f :: fs, d =>
    if strEndsWith f ".swift" then
      if f ∈ BASE_KIND_FILES.map Prod.snd then
        prune_syntax_node_files_loop rm fs d
      else
        match rm f with
        | .error e => .error e
        | .ok _ => prune_syntax_node_files_loop rm fs (delFile d f)
    else
      prune_syntax_node_files_loop rm fs d

/-- Lines 264-280: expand the template once per base kind, sequentially, with
one `-DEMIT_KIND` flag per kind; a failure propagates immediately. -/
def generate_base_kind_files (gyb : Gyb) (gyb_exec : String) (add_source_locations : Bool) :
    List (String × String) → SyncState → Except CalledProcessError (SyncState × List SyncOutcome)
  | [], st => .ok (st, [])
  | (base_kind, output_file_name) :: kinds, st =>
    match generate_single_gyb_file gyb gyb_exec SYNTAX_NODES_TEMPLATE output_file_name
        add_source_locations ["-DEMIT_KIND=" ++ base_kind] st with
    | .error e => .error e
    | .ok (st1, oc) =>
      match generate_base_kind_files gyb gyb_exec add_source_locations kinds st1 with
      | .error e => .error e
      | .ok (st2, ocs) => .ok (st2, oc :: ocs)

/-- Lines 240-280: prune the `syntax_nodes` destination against the
allow-list, then expand the multi-output template once per base kind. -/
def generate_syntax_node_template_gyb_files (gyb : Gyb) (rm : Rm) (gyb_exec : String)
    (add_source_locations : Bool) (nodes : Dir) (temp : Dir) (now : Nat) :
    Except CalledProcessError ((Dir × Dir × Nat) × List SyncOutcome) :=
  match prune_syntax_node_files_loop rm (names nodes) nodes with
  | .error e => .error e
  | .ok nodes1 =>
    match generate_base_kind_files gyb gyb_exec add_source_locations BASE_KIND_FILES
        ⟨temp, nodes1, now⟩ with
    | .error e => .error e
    | .ok (st, ocs) => .ok ((st.dest, st.temp, st.now), ocs)

/-- The state a whole `generate_gyb_files` run operates on: the source trees
handed to the four helper invocations, the `syntax_nodes` destination of the
template expansion, the shared temporary directory, and the clock. -/
structure World where
  trees : List Tree
  nodes : Dir
  temp : Dir
  now : Nat
deriving DecidableEq, Repr

instance {ε α : Type} [DecidableEq ε] [DecidableEq α] : DecidableEq (Except ε α) := fun a b =>
  match a, b with
  | .error e, .error f => decidable_of_iff (e = f) (by simp)
  | .ok x, .ok y => decidable_of_iff (x = y) (by simp)
  | .error _, .ok _ => isFalse (fun h => Except.noConfusion h)
  | .ok _, .error _ => isFalse (fun h => Except.noConfusion h)

/-- Everything a run produced besides the final state: the futures of all
pool tasks and the synchronizer outcomes of the base-kind expansion. -/
structure RunLog where
  futures : List (String × Except CalledProcessError SyncOutcome)
  nodeOutcomes : List SyncOutcome
deriving DecidableEq, Repr

/-- Lines 295-322: the sequential helper invocations of `generate_gyb_files`,
threading the shared temporary directory and the clock. -/
def run_helpers (gyb : Gyb) (rm : Rm) (gyb_exec : String) (add_source_locations : Bool) :
    List Tree → Dir → Nat →
    Except CalledProcessError
      ((List Tree × Dir × Nat) × List (String × Except CalledProcessError SyncOutcome))
  | [], temp, now => .ok (([], temp, now), [])
  | t :: ts, temp, now =>
    match generate_gyb_files_helper_run gyb rm gyb_exec add_source_locations t temp now with
    | .error e => .error e
    | .ok ((t1, temp1, now1), fut) =>
      match run_helpers gyb rm gyb_exec add_source_locations ts temp1 now1 with
      | .error e => .error e
      | .ok ((ts1, temp2, now2), futs) => .ok ((t1 :: ts1, temp2, now2), fut ++ futs)

/-- Lines 283-330 of `generate_gyb_files`, with the run log exposed: run the
helper on every tree, then the syntax-node template expansion. -/
def generate_gyb_files_run (gyb : Gyb) (rm : Rm) (gyb_exec : String)
    (add_source_locations : Bool) (w : World) : Except CalledProcessError (World × RunLog) :=
  match run_helpers gyb rm gyb_exec add_source_locations w.trees w.temp w.now with
  | .error e => .error e
  | .ok ((trees1, temp1, now1), futs) =>
    match generate_syntax_node_template_gyb_files gyb rm gyb_exec add_source_locations
        w.nodes temp1 now1 with
    | .error e => .error e
    | .ok ((nodes1, temp2, now2), ocs) =>
      .ok (⟨trees1, nodes1, temp2, now2⟩, ⟨futs, ocs⟩)

/-- The observable `generate_gyb_files`: its value is the final state; the
run log exists only in the futures and in uncaptured `rsync` behaviour. -/
def generate_gyb_files (gyb : Gyb) (rm : Rm) (gyb_exec : String)
    (add_source_locations : Bool) (w : World) : Except CalledProcessError World :=
  (generate_gyb_files_run gyb rm gyb_exec add_source_locations w).map (·.1)

/-- Entries of a directory that `diff --exclude .*` compares. -/
def visible (d : Dir) : Dir := d.filter (fun p => !(strStartsWith p.1 "."))

/-- Modelled from the spec: the recursive `diff` of
`check_generated_files_match` exits zero exactly when the two directories
hold the same non-hidden file names with byte-identical contents. -/
def dirs_match (a b : Dir) : Bool :=
  ((visible a).all fun p => match getFile (visible b) p.1 with
    | some f => f.content == p.2.content
    | none => false)
  && ((visible b).all fun p => match getFile (visible a) p.1 with
    | some f => f.content == p.2.content
    | none => false)

/-- Lines 535-546: `check_call` on the recursive diff; a difference surfaces
as a `CalledProcessError` of the diff command. -/
def check_generated_files_match (self_dir user_dir : Dir) : Except CalledProcessError Unit :=
  if dirs_match self_dir user_dir then .ok ()
  else .error ⟨["diff", "--recursive", "--exclude", ".*", "--context=0"], "differs"⟩

/-- Lines 484-499: the pairwise comparisons of scratch trees against the
committed trees, stopping at the first divergence. -/
def check_trees_match : List (Tree × Tree) → Except CalledProcessError Unit
  | [] => .ok ()
  | (s, u) :: rest =>
    match check_generated_files_match s.dest u.dest with
    | .error e => .error e
    | .ok _ => check_trees_match rest

/-- Lines 469-472: the worlds regeneration writes into during verification:
the same sources, but fresh empty `mkdtemp` destinations (and so an empty
`syntax_nodes` destination); the temporary directory is the shared one. -/
def scratch_world (w : World) : World :=
  ⟨w.trees.map (fun t => ⟨t.path, t.listing, []⟩), [], w.temp, w.now⟩

/-- Lines 455-499: `verify_generated_files` regenerates everything into
throwaway destinations, unconditionally with `add_source_locations=False`
(line 477), then recursively diffs scratch against the committed trees and
the committed `syntax_nodes` destination. Read-only on the committed trees. -/
def verify_generated_files (gyb : Gyb) (rm : Rm) (gyb_exec : String) (w : World) :
    Except CalledProcessError Unit :=
  match generate_gyb_files gyb rm gyb_exec false (scratch_world w) with
  | .error e => .error e
  | .ok sw =>
    match check_trees_match (sw.trees.zip w.trees) with
    | .error e => .error e
    | .ok _ => check_generated_files_match sw.nodes w.nodes

/-! ### Derived notions shared by the theorem statements -/

/-- The renderer invocation a pool task for template `f` performs. -/
def task_render (gyb : Gyb) (gyb_exec path : String) (aSL : Bool) (f : String) :
    Except CalledProcessError String :=
  gyb (gyb_command gyb_exec (os_path_join path f) (strDropRight f 4) aSL [])

/-- The renderer invocation that the base-kind expansion performs for one
allow-list pair `p = (kind, output file name)`. -/
def kind_render (gyb : Gyb) (gyb_exec : String) (aSL : Bool) (p : String × String) :
    Except CalledProcessError String :=
  gyb (gyb_command gyb_exec SYNTAX_NODES_TEMPLATE p.2 aSL ["-DEMIT_KIND=" ++ p.1])

/-- The output file names of a sources listing. -/
def outputs (listing : List String) : List String :=
  (gyb_files listing).map (fun f => strDropRight f 4)

/-! ### String lemmas -/

theorem strDropRight_append (s post : String) (h : strEndsWith s post = true) :
    strDropRight s post.length ++ post = s := by
  obtain ⟨sd⟩ := s
  obtain ⟨pd⟩ := post
  unfold strEndsWith at h
  rw [List.isSuffixOf_iff_suffix] at h
  obtain ⟨t, ht⟩ := h
  subst ht
  show String.mk _ = _
  simp [String.length, List.take_left']

theorem strEndsWith_append (t post : String) : strEndsWith (t ++ post) post = true := by
  obtain ⟨td⟩ := t; obtain ⟨pd⟩ := post
  unfold strEndsWith
  rw [List.isSuffixOf_iff_suffix]
  exact ⟨td, rfl⟩

theorem gyb_length : ".gyb".length = 4 := rfl

theorem strDropRight_gyb_append (f : String) (h : strEndsWith f ".gyb" = true) :
    strDropRight f 4 ++ ".gyb" = f :=
  strDropRight_append f ".gyb" h

/-- On strings ending in `.gyb`, slicing the suffix off is injective. -/
theorem strDropRight_gyb_inj (f g : String) (hf : strEndsWith f ".gyb" = true)
    (hg : strEndsWith g ".gyb" = true) (h : strDropRight f 4 = strDropRight g 4) : f = g := by
  have := strDropRight_gyb_append f hf
  rw [← this, h, strDropRight_gyb_append g hg]

/-! ### Directory lemmas -/

theorem names_nil : names [] = [] := rfl

theorem names_cons (p : String × File) (d : Dir) : names (p :: d) = p.1 :: names d := rfl

theorem getFile_setFile_self (d : Dir) (n : String) (v : File) :
    getFile (setFile d n v) n = some v := by
  induction d with
  | nil => simp [setFile, getFile]
  | cons p d ih =>
    by_cases h : p.1 = n <;> simp [setFile, getFile, h, ih]

theorem getFile_setFile_ne (d : Dir) (n m : String) (v : File) (h : m ≠ n) :
    getFile (setFile d n v) m = getFile d m := by
  have hnm : n ≠ m := Ne.symm h
  induction d with
  | nil => simp [setFile, getFile, hnm]
  | cons p d ih =>
    obtain ⟨a, g⟩ := p
    by_cases hp : a = n
    · simp [setFile, getFile, hp, hnm]
    · by_cases hm : a = m <;> simp [setFile, getFile, hp, hm, hnm, h, ih]

theorem setFile_self (d : Dir) (n : String) (v : File) (h : getFile d n = some v) :
    setFile d n v = d := by
  induction d with
  | nil => simp [getFile] at h
  | cons p d ih =>
    obtain ⟨a, g⟩ := p
    by_cases hp : a = n
    · simp only [getFile, if_pos hp] at h
      subst hp
      cases h
      simp [setFile]
    · simp only [getFile, if_neg hp] at h
      simp [setFile, hp, ih h]

theorem mem_names_iff_getFile (d : Dir) (n : String) :
    n ∈ names d ↔ (getFile d n).isSome = true := by
  induction d with
  | nil => simp [names, getFile]
  | cons p d ih =>
    obtain ⟨a, g⟩ := p
    rw [names_cons, List.mem_cons]
    by_cases hp : a = n
    · subst hp
      simp [getFile]
    · have hna : ¬n = a := fun hh => hp hh.symm
      simp only [getFile, if_neg hp]
      constructor
      · rintro (hh | hh)
        · exact absurd hh hna
        · rw [← ih]
          exact hh
      · intro hh
        exact Or.inr (ih.2 hh)

theorem mem_names_setFile (d : Dir) (n m : String) (v : File) :
    m ∈ names (setFile d n v) ↔ m = n ∨ m ∈ names d := by
  by_cases h : m = n
  · subst h
    simp [mem_names_iff_getFile, getFile_setFile_self]
  · rw [mem_names_iff_getFile, getFile_setFile_ne d n m v h, ← mem_names_iff_getFile]
    simp [h]

theorem getFile_delFile_self (d : Dir) (n : String) : getFile (delFile d n) n = none := by
  induction d with
  | nil => simp [delFile, getFile]
  | cons p d ih =>
    obtain ⟨a, g⟩ := p
    by_cases hp : a = n
    · simpa [delFile, hp] using ih
    · simpa [delFile, getFile, hp] using ih

theorem getFile_delFile_ne (d : Dir) (n m : String) (h : m ≠ n) :
    getFile (delFile d n) m = getFile d m := by
  induction d with
  | nil => simp [delFile]
  | cons p d ih =>
    obtain ⟨a, g⟩ := p
    have hnm : ¬n = m := fun hh => h hh.symm
    by_cases hp : a = n
    · have ham : ¬a = m := fun hh => h (hh ▸ hp)
      simp [delFile, getFile, hp, ham, hnm, ih]
    · by_cases hm : a = m <;> simp [delFile, getFile, hp, hm, hnm, h, ih]

theorem mem_names_delFile (d : Dir) (n m : String) :
    m ∈ names (delFile d n) ↔ m ∈ names d ∧ m ≠ n := by
  by_cases h : m = n
  · subst h
    simp [mem_names_iff_getFile, getFile_delFile_self]
  · rw [mem_names_iff_getFile, getFile_delFile_ne d n m h, ← mem_names_iff_getFile]
    simp [h]

theorem nodup_names_setFile (d : Dir) (n : String) (v : File)
    (h : (names d).Nodup) : (names (setFile d n v)).Nodup := by
  induction d with
  | nil => simp [setFile, names]
  | cons p d ih =>
    obtain ⟨a, g⟩ := p
    rw [names_cons, List.nodup_cons] at h
    by_cases hp : a = n
    · subst hp
      rw [setFile, if_pos rfl, names_cons, List.nodup_cons]
      exact h
    · rw [setFile, if_neg hp, names_cons, List.nodup_cons]
      refine ⟨fun hc => ?_, ih h.2⟩
      rcases (mem_names_setFile d n a v).1 hc with h1 | h1
      · exact hp h1
      · exact h.1 h1

theorem nodup_names_delFile (d : Dir) (n : String) (h : (names d).Nodup) :
    (names (delFile d n)).Nodup := by
  induction d with
  | nil => simp [delFile, names]
  | cons p d ih =>
    obtain ⟨a, g⟩ := p
    rw [names_cons, List.nodup_cons] at h
    by_cases hp : a = n
    · rw [delFile, if_pos hp]
      exact ih h.2
    · rw [delFile, if_neg hp, names_cons, List.nodup_cons]
      refine ⟨fun hc => ?_, ih h.2⟩
      exact h.1 ((mem_names_delFile d n a).1 hc).1

/-- With distinct names, each entry is what lookup returns for its name. -/
theorem getFile_of_mem_nodup (d : Dir) (p : String × File) (hnd : (names d).Nodup)
    (hmem : p ∈ d) : getFile d p.1 = some p.2 := by
  induction d with
  | nil => simp at hmem
  | cons q d ih =>
    obtain ⟨a, g⟩ := q
    rw [names_cons, List.nodup_cons] at hnd
    rcases List.mem_cons.1 hmem with h | h
    · subst h
      simp [getFile]
    · have hmem2 : p.1 ∈ names d := List.mem_map.mpr ⟨p, h, rfl⟩
      have hne : a ≠ p.1 := fun hq => hnd.1 (hq ▸ hmem2)
      simp [getFile, hne, ih hnd.2 h]

/-! ### Lemmas on the generic pruner -/

theorem getFile_delFile_none (d : Dir) (f n : String) (h : getFile d n = none) :
    getFile (delFile d f) n = none := by
  by_cases hfn : n = f
  · subst hfn
    exact getFile_delFile_self d n
  · rwa [getFile_delFile_ne d f n hfn]

theorem clear_loop_noop (rm : Rm) (sources : List String) (ns : List String) (d : Dir)
    (h : ∀ f ∈ ns, strEndsWith f ".swift" = true → (f ++ ".gyb") ∈ sources) :
    clear_gyb_files_loop rm sources ns d = .ok d := by
  induction ns with
  | nil => rfl
  | cons f ns ih =>
    have ih2 := ih (fun g hg hsw => h g (List.mem_cons_of_mem _ hg) hsw)
    by_cases hs : strEndsWith f ".swift" = true
    · have ht := h f (List.mem_cons_self f ns) hs
      simp [clear_gyb_files_loop, hs, ht, ih2]
    · simp [clear_gyb_files_loop, hs, ih2]

theorem clear_loop_none (rm : Rm) (sources : List String) :
    ∀ (ns : List String) (d d' : Dir),
    clear_gyb_files_loop rm sources ns d = .ok d' →
    ∀ n, getFile d n = none → getFile d' n = none := by
  intro ns
  induction ns with
  | nil =>
    intro d d' h n hn
    cases h
    exact hn
  | cons f ns ih =>
    intro d d' h n hn
    rw [clear_gyb_files_loop] at h
    by_cases hs : strEndsWith f ".swift" = true
    · rw [if_pos hs] at h
      by_cases ht : (f ++ ".gyb") ∈ sources
      · rw [if_pos ht] at h
        exact ih d d' h n hn
      · rw [if_neg ht] at h
        cases hrm : rm f with
        | error e => rw [hrm] at h; cases h
        | ok u =>
          rw [hrm] at h
          exact ih (delFile d f) d' h n (getFile_delFile_none d f n hn)
    · rw [if_neg hs] at h
      exact ih d d' h n hn

theorem clear_loop_keeps (rm : Rm) (sources : List String) :
    ∀ (ns : List String) (d d' : Dir),
    clear_gyb_files_loop rm sources ns d = .ok d' →
    ∀ n, (strEndsWith n ".swift" = true → (n ++ ".gyb") ∈ sources) →
    getFile d' n = getFile d n := by
  intro ns
  induction ns with
  | nil =>
    intro d d' h n _
    cases h
    rfl
  | cons f ns ih =>
    intro d d' h n hk
    rw [clear_gyb_files_loop] at h
    by_cases hs : strEndsWith f ".swift" = true
    · rw [if_pos hs] at h
      by_cases ht : (f ++ ".gyb") ∈ sources
      · rw [if_pos ht] at h
        exact ih d d' h n hk
      · rw [if_neg ht] at h
        cases hrm : rm f with
        | error e => rw [hrm] at h; cases h
        | ok u =>
          rw [hrm] at h
          have hnf : n ≠ f := by
            intro hnf
            subst hnf
            exact ht (hk hs)
          rw [ih (delFile d f) d' h n hk, getFile_delFile_ne d f n hnf]
    · rw [if_neg hs] at h
      exact ih d d' h n hk

theorem clear_loop_deletes (rm : Rm) (sources : List String) :
    ∀ (ns : List String) (d d' : Dir),
    clear_gyb_files_loop rm sources ns d = .ok d' →
    ∀ n, n ∈ ns → strEndsWith n ".swift" = true → (n ++ ".gyb") ∉ sources →
    getFile d' n = none := by
  intro ns
  induction ns with
  | nil =>
    intro d d' _ n hn
    cases hn
  | cons f ns ih =>
    intro d d' h n hn hs ht
    rw [clear_gyb_files_loop] at h
    rcases List.mem_cons.1 hn with hnf | hnmem
    · subst hnf
      rw [if_pos hs, if_neg ht] at h
      cases hrm : rm n with
      | error e => rw [hrm] at h; cases h
      | ok u =>
        rw [hrm] at h
        exact clear_loop_none rm sources ns (delFile d n) d' h n (getFile_delFile_self d n)
    · by_cases hfs : strEndsWith f ".swift" = true
      · rw [if_pos hfs] at h
        by_cases hft : (f ++ ".gyb") ∈ sources
        · rw [if_pos hft] at h
          exact ih d d' h n hnmem hs ht
        · rw [if_neg hft] at h
          cases hrm : rm f with
          | error e => rw [hrm] at h; cases h
          | ok u =>
            rw [hrm] at h
            exact ih (delFile d f) d' h n hnmem hs ht
      · rw [if_neg hfs] at h
        exact ih d d' h n hnmem hs ht

theorem clear_loop_nodup (rm : Rm) (sources : List String) :
    ∀ (ns : List String) (d d' : Dir),
    clear_gyb_files_loop rm sources ns d = .ok d' →
    (names d).Nodup → (names d').Nodup := by
  intro ns
  induction ns with
  | nil =>
    intro d d' h hnd
    cases h
    exact hnd
  | cons f ns ih =>
    intro d d' h hnd
    rw [clear_gyb_files_loop] at h
    by_cases hs : strEndsWith f ".swift" = true
    · rw [if_pos hs] at h
      by_cases ht : (f ++ ".gyb") ∈ sources
      · rw [if_pos ht] at h
        exact ih d d' h hnd
      · rw [if_neg ht] at h
        cases hrm : rm f with
        | error e => rw [hrm] at h; cases h
        | ok u =>
          rw [hrm] at h
          exact ih (delFile d f) d' h (nodup_names_delFile d f hnd)
    · rw [if_neg hs] at h
      exact ih d d' h hnd

theorem clear_loop_ok (rm : Rm) (sources : List String)
    (hrm : ∀ f, rm f = .ok ()) :
    ∀ (ns : List String) (d : Dir), ∃ d', clear_gyb_files_loop rm sources ns d = .ok d' := by
  intro ns
  induction ns with
  | nil => intro d; exact ⟨d, rfl⟩
  | cons f ns ih =>
    intro d
    rw [clear_gyb_files_loop]
    by_cases hs : strEndsWith f ".swift" = true
    · rw [if_pos hs]
      by_cases ht : (f ++ ".gyb") ∈ sources
      · rw [if_pos ht]
        exact ih d
      · rw [if_neg ht, hrm f]
        exact ih (delFile d f)
    · rw [if_neg hs]
      exact ih d

/-- Names surviving the pruner were already present. -/
theorem clear_loop_names_subset (rm : Rm) (sources : List String) (ns : List String)
    (d d' : Dir) (h : clear_gyb_files_loop rm sources ns d = .ok d')
    (n : String) (hn : n ∈ names d') : n ∈ names d := by
  rw [mem_names_iff_getFile] at hn ⊢
  by_cases hd : getFile d n = none
  · rw [clear_loop_none rm sources ns d d' h n hd] at hn
    cases hn
  · cases hg : getFile d n with
    | none => exact absurd hg hd
    | some v => rfl

/-! ### Lemmas on the syntax-node pruner -/

theorem prune_nodes_noop (rm : Rm) (ns : List String) (d : Dir)
    (h : ∀ f ∈ ns, strEndsWith f ".swift" = true → f ∈ BASE_KIND_FILES.map Prod.snd) :
    prune_syntax_node_files_loop rm ns d = .ok d := by
  induction ns with
  | nil => rfl
  | cons f ns ih =>
    have ih2 := ih (fun g hg hsw => h g (List.mem_cons_of_mem _ hg) hsw)
    by_cases hs : strEndsWith f ".swift" = true
    · have ht := h f (List.mem_cons_self f ns) hs
      simp [prune_syntax_node_files_loop, hs, ht, ih2]
    · simp [prune_syntax_node_files_loop, hs, ih2]

theorem prune_nodes_none (rm : Rm) :
    ∀ (ns : List String) (d d' : Dir),
    prune_syntax_node_files_loop rm ns d = .ok d' →
    ∀ n, getFile d n = none → getFile d' n = none := by
  intro ns
  induction ns with
  | nil =>
    intro d d' h n hn
    cases h
    exact hn
  | cons f ns ih =>
    intro d d' h n hn
    rw [prune_syntax_node_files_loop] at h
    by_cases hs : strEndsWith f ".swift" = true
    · rw [if_pos hs] at h
      by_cases ht : f ∈ BASE_KIND_FILES.map Prod.snd
      · rw [if_pos ht] at h
        exact ih d d' h n hn
      · rw [if_neg ht] at h
        cases hrm : rm f with
        | error e => rw [hrm] at h; cases h
        | ok u =>
          rw [hrm] at h
          exact ih (delFile d f) d' h n (getFile_delFile_none d f n hn)
    · rw [if_neg hs] at h
      exact ih d d' h n hn

theorem prune_nodes_keeps (rm : Rm) :
    ∀ (ns : List String) (d d' : Dir),
    prune_syntax_node_files_loop rm ns d = .ok d' →
    ∀ n, (strEndsWith n ".swift" = true → n ∈ BASE_KIND_FILES.map Prod.snd) →
    getFile d' n = getFile d n := by
  intro ns
  induction ns with
  | nil =>
    intro d d' h n _
    cases h
    rfl
  | cons f ns ih =>
    intro d d' h n hk
    rw [prune_syntax_node_files_loop] at h
    by_cases hs : strEndsWith f ".swift" = true
    · rw [if_pos hs] at h
      by_cases ht : f ∈ BASE_KIND_FILES.map Prod.snd
      · rw [if_pos ht] at h
        exact ih d d' h n hk
      · rw [if_neg ht] at h
        cases hrm : rm f with
        | error e => rw [hrm] at h; cases h
        | ok u =>
          rw [hrm] at h
          have hnf : n ≠ f := by
            intro hnf
            subst hnf
            exact ht (hk hs)
          rw [ih (delFile d f) d' h n hk, getFile_delFile_ne d f n hnf]
    · rw [if_neg hs] at h
      exact ih d d' h n hk

theorem prune_nodes_nodup (rm : Rm) :
    ∀ (ns : List String) (d d' : Dir),
    prune_syntax_node_files_loop rm ns d = .ok d' →
    (names d).Nodup → (names d').Nodup := by
  intro ns
  induction ns with
  | nil =>
    intro d d' h hnd
    cases h
    exact hnd
  | cons f ns ih =>
    intro d d' h hnd
    rw [prune_syntax_node_files_loop] at h
    by_cases hs : strEndsWith f ".swift" = true
    · rw [if_pos hs] at h
      by_cases ht : f ∈ BASE_KIND_FILES.map Prod.snd
      · rw [if_pos ht] at h
        exact ih d d' h hnd
      · rw [if_neg ht] at h
        cases hrm : rm f with
        | error e => rw [hrm] at h; cases h
        | ok u =>
          rw [hrm] at h
          exact ih (delFile d f) d' h (nodup_names_delFile d f hnd)
    · rw [if_neg hs] at h
      exact ih d d' h hnd

/-! ### Lemmas on the synchronizer -/

theorem rsync_content (s : File) (d : Option File) (now : Nat) :
    (rsync_checksum s d now).1.content = s.content := by
  cases d with
  | none => rfl
  | some v =>
    by_cases h : v.content = s.content
    · simp [rsync_checksum, h]
    · simp [rsync_checksum, h]

theorem rsync_unchanged (s d : File) (now : Nat) (h : d.content = s.content) :
    rsync_checksum s (some d) now = (d, .Unchanged) := by
  simp [rsync_checksum, h]

theorem rsync_absent (s : File) (now : Nat) :
    rsync_checksum s none now = (⟨s.content, now⟩, .Changed) := rfl

theorem rsync_differs (s d : File) (now : Nat) (h : d.content ≠ s.content) :
    rsync_checksum s (some d) now = (⟨s.content, now⟩, .Changed) := by
  simp [rsync_checksum, h]

/-! ### Lemmas on the thread-pool fan-out -/

section Executor

variable (gyb : Gyb) (ge path : String) (aSL : Bool)

theorem executor_frame : ∀ (fs : List String) (st : SyncState) (n : String),
    n ∉ fs.map (fun f => strDropRight f 4) →
    getFile (executor_map_gyb gyb ge path aSL fs st).1.dest n = getFile st.dest n ∧
    getFile (executor_map_gyb gyb ge path aSL fs st).1.temp n = getFile st.temp n := by
  intro fs
  induction fs with
  | nil =>
    intro st n _
    exact ⟨rfl, rfl⟩
  | cons f fs ih =>
    intro st n hn
    rw [List.map_cons, List.mem_cons] at hn
    push_neg at hn
    obtain ⟨hn1, hn2⟩ := hn
    rw [executor_map_gyb]
    cases hg : gyb (gyb_command ge (os_path_join path f) (strDropRight f 4) aSL []) with
    | error e =>
      simp only [generate_gyb_file, generate_single_gyb_file, hg]
      exact ih st n hn2
    | ok c =>
      simp only [generate_gyb_file, generate_single_gyb_file, hg]
      obtain ⟨ihd, iht⟩ := ih _ n hn2
      rw [ihd, iht]
      exact ⟨getFile_setFile_ne _ _ _ _ hn1, getFile_setFile_ne _ _ _ _ hn1⟩

theorem executor_stable : ∀ (fs : List String) (st : SyncState),
    (∀ f ∈ fs, ∃ c df, task_render gyb ge path aSL f = .ok c ∧
      getFile st.dest (strDropRight f 4) = some df ∧ df.content = c) →
    (executor_map_gyb gyb ge path aSL fs st).1.dest = st.dest ∧
    ∀ r ∈ (executor_map_gyb gyb ge path aSL fs st).2, r.2 = .ok .Unchanged := by
  intro fs
  induction fs with
  | nil =>
    intro st _
    exact ⟨rfl, by intro r hr; cases hr⟩
  | cons f fs ih =>
    intro st hst
    obtain ⟨c, df, hc, hdf, hcc⟩ := hst f (List.mem_cons_self f fs)
    simp only [task_render] at hc
    rw [executor_map_gyb]
    simp only [generate_gyb_file, generate_single_gyb_file, hc]
    rw [hdf, rsync_unchanged ⟨c, st.now⟩ df (st.now + 1) hcc]
    have hset : setFile st.dest (strDropRight f 4) df = st.dest :=
      setFile_self st.dest (strDropRight f 4) df hdf
    have hst2 : ∀ g ∈ fs, ∃ c2 df2, task_render gyb ge path aSL g = .ok c2 ∧
        getFile (setFile st.dest (strDropRight f 4) df) (strDropRight g 4) = some df2 ∧
        df2.content = c2 := by
      intro g hg
      obtain ⟨c2, df2, hc2, hdf2, hcc2⟩ := hst g (List.mem_cons_of_mem f hg)
      exact ⟨c2, df2, hc2, by rw [hset]; exact hdf2, hcc2⟩
    obtain ⟨ih1, ih2⟩ := ih ⟨setFile st.temp (strDropRight f 4) ⟨c, st.now⟩,
      setFile st.dest (strDropRight f 4) df, st.now + 2⟩ hst2
    constructor
    · rw [ih1]
      exact hset
    · intro r hr
      rcases List.mem_cons.1 hr with h1 | h1
      · rw [h1]
      · exact ih2 r h1

theorem executor_content : ∀ (fs : List String) (st : SyncState),
    (fs.map (fun f => strDropRight f 4)).Nodup →
    ∀ f ∈ fs, ∀ c, task_render gyb ge path aSL f = .ok c →
    ((getFile (executor_map_gyb gyb ge path aSL fs st).1.dest (strDropRight f 4)).map
        File.content = some c) ∧
    ((getFile (executor_map_gyb gyb ge path aSL fs st).1.temp (strDropRight f 4)).map
        File.content = some c) := by
  intro fs
  induction fs with
  | nil =>
    intro st _ f hf
    cases hf
  | cons g fs ih =>
    intro st hnd f hf c hc
    rw [List.map_cons, List.nodup_cons] at hnd
    rcases List.mem_cons.1 hf with hfg | hfmem
    · subst hfg
      have hc2 := hc
      simp only [task_render] at hc2
      rw [executor_map_gyb]
      simp only [generate_gyb_file, generate_single_gyb_file, hc2]
      obtain ⟨hframe_d, hframe_t⟩ := executor_frame gyb ge path aSL fs _ (strDropRight f 4) hnd.1
      rw [hframe_d, hframe_t]
      constructor
      · rw [getFile_setFile_self]
        simp [rsync_content ⟨c, st.now⟩ (getFile st.dest (strDropRight f 4)) (st.now + 1)]
      · rw [getFile_setFile_self]
        rfl
    · rw [executor_map_gyb]
      cases hg : gyb (gyb_command ge (os_path_join path g) (strDropRight g 4) aSL []) with
      | error e =>
        simp only [generate_gyb_file, generate_single_gyb_file, hg]
        exact ih st hnd.2 f hfmem c hc
      | ok c2 =>
        simp only [generate_gyb_file, generate_single_gyb_file, hg]
        exact ih _ hnd.2 f hfmem c hc

theorem executor_names : ∀ (fs : List String) (st : SyncState),
    (∀ f ∈ fs, ∃ c, task_render gyb ge path aSL f = .ok c) →
    ∀ n, n ∈ names (executor_map_gyb gyb ge path aSL fs st).1.dest ↔
      n ∈ fs.map (fun f => strDropRight f 4) ∨ n ∈ names st.dest := by
  intro fs
  induction fs with
  | nil =>
    intro st _ n
    simp [executor_map_gyb]
  | cons f fs ih =>
    intro st hok n
    obtain ⟨c, hc⟩ := hok f (List.mem_cons_self f fs)
    have hc2 := hc
    simp only [task_render] at hc2
    rw [executor_map_gyb]
    simp only [generate_gyb_file, generate_single_gyb_file, hc2]
    rw [List.map_cons, List.mem_cons]
    rw [ih _ (fun g hg => hok g (List.mem_cons_of_mem f hg)) n]
    rw [mem_names_setFile]
    tauto

theorem executor_nodup : ∀ (fs : List String) (st : SyncState),
    (names st.dest).Nodup →
    (names (executor_map_gyb gyb ge path aSL fs st).1.dest).Nodup := by
  intro fs
  induction fs with
  | nil =>
    intro st h
    exact h
  | cons f fs ih =>
    intro st h
    rw [executor_map_gyb]
    cases hg : gyb (gyb_command ge (os_path_join path f) (strDropRight f 4) aSL []) with
    | error e =>
      simp only [generate_gyb_file, generate_single_gyb_file, hg]
      exact ih st h
    | ok c =>
      simp only [generate_gyb_file, generate_single_gyb_file, hg]
      exact ih _ (nodup_names_setFile _ _ _ h)

end Executor

/-! ### Lemmas on the sequential base-kind expansion -/

section Kinds

variable (gyb : Gyb) (ge : String) (aSL : Bool)

theorem kinds_stable : ∀ (kinds : List (String × String)) (st : SyncState),
    (∀ p ∈ kinds, ∃ c df, kind_render gyb ge aSL p = .ok c ∧
      getFile st.dest p.2 = some df ∧ df.content = c) →
    ∃ st2 ocs, generate_base_kind_files gyb ge aSL kinds st = .ok (st2, ocs) ∧
      st2.dest = st.dest ∧ ∀ oc ∈ ocs, oc = SyncOutcome.Unchanged := by
  intro kinds
  induction kinds with
  | nil =>
    intro st _
    exact ⟨st, [], rfl, rfl, by intro oc hoc; cases hoc⟩
  | cons p kinds ih =>
    intro st hst
    obtain ⟨k, out⟩ := p
    obtain ⟨c, df, hc, hdf, hcc⟩ := hst (k, out) (List.mem_cons_self _ _)
    simp only [kind_render] at hc
    have hset : setFile st.dest out df = st.dest := setFile_self st.dest out df hdf
    have hst2 : ∀ q ∈ kinds, ∃ c2 df2, kind_render gyb ge aSL q = .ok c2 ∧
        getFile (setFile st.dest out df) q.2 = some df2 ∧ df2.content = c2 := by
      intro q hq
      obtain ⟨c2, df2, hc2, hdf2, hcc2⟩ := hst q (List.mem_cons_of_mem _ hq)
      exact ⟨c2, df2, hc2, by rw [hset]; exact hdf2, hcc2⟩
    obtain ⟨st2, ocs, hrec, hdest, hocs⟩ :=
      ih ⟨setFile st.temp out ⟨c, st.now⟩, setFile st.dest out df, st.now + 2⟩ hst2
    refine ⟨st2, .Unchanged :: ocs, ?_, ?_, ?_⟩
    · rw [generate_base_kind_files]
      simp only [generate_single_gyb_file, hc]
      rw [hdf, rsync_unchanged ⟨c, st.now⟩ df (st.now + 1) hcc]
      rw [hrec]
    · rw [hdest, hset]
    · intro oc hoc
      rcases List.mem_cons.1 hoc with h1 | h1
      · exact h1
      · exact hocs oc h1

theorem kinds_frame : ∀ (kinds : List (String × String)) (st : SyncState)
    (st2 : SyncState) (ocs : List SyncOutcome),
    generate_base_kind_files gyb ge aSL kinds st = .ok (st2, ocs) →
    ∀ n, n ∉ kinds.map Prod.snd → getFile st2.dest n = getFile st.dest n := by
  intro kinds
  induction kinds with
  | nil =>
    intro st st2 ocs h n _
    cases h
    rfl
  | cons p kinds ih =>
    intro st st2 ocs h n hn
    obtain ⟨k, out⟩ := p
    rw [List.map_cons, List.mem_cons] at hn
    push_neg at hn
    obtain ⟨hn1, hn2⟩ := hn
    rw [generate_base_kind_files] at h
    cases hg : gyb (gyb_command ge SYNTAX_NODES_TEMPLATE out aSL ["-DEMIT_KIND=" ++ k]) with
    | error e =>
      simp only [generate_single_gyb_file, hg] at h
      cases h
    | ok c =>
      simp only [generate_single_gyb_file, hg] at h
      cases hrec : generate_base_kind_files gyb ge aSL kinds
          ⟨setFile st.temp out ⟨c, st.now⟩,
           setFile st.dest out (rsync_checksum ⟨c, st.now⟩ (getFile st.dest out) (st.now + 1)).1,
           st.now + 2⟩ with
      | error e =>
        rw [hrec] at h
        cases h
      | ok r =>
        rw [hrec] at h
        cases h
        have := ih _ r.1 r.2 (by rw [hrec]) n hn2
        rw [this]
        exact getFile_setFile_ne _ _ _ _ hn1

theorem kinds_content : ∀ (kinds : List (String × String)) (st : SyncState)
    (st2 : SyncState) (ocs : List SyncOutcome),
    generate_base_kind_files gyb ge aSL kinds st = .ok (st2, ocs) →
    (kinds.map Prod.snd).Nodup →
    ∀ p ∈ kinds, ∃ c, kind_render gyb ge aSL p = .ok c ∧
      (getFile st2.dest p.2).map File.content = some c := by
  intro kinds
  induction kinds with
  | nil =>
    intro st st2 ocs _ _ p hp
    cases hp
  | cons q kinds ih =>
    intro st st2 ocs h hnd p hp
    obtain ⟨k, out⟩ := q
    rw [List.map_cons, List.nodup_cons] at hnd
    rw [generate_base_kind_files] at h
    cases hg : gyb (gyb_command ge SYNTAX_NODES_TEMPLATE out aSL ["-DEMIT_KIND=" ++ k]) with
    | error e =>
      simp only [generate_single_gyb_file, hg] at h
      cases h
    | ok c =>
      simp only [generate_single_gyb_file, hg] at h
      cases hrec : generate_base_kind_files gyb ge aSL kinds
          ⟨setFile st.temp out ⟨c, st.now⟩,
           setFile st.dest out (rsync_checksum ⟨c, st.now⟩ (getFile st.dest out) (st.now + 1)).1,
           st.now + 2⟩ with
      | error e =>
        rw [hrec] at h
        cases h
      | ok r =>
        rw [hrec] at h
        cases h
        rcases List.mem_cons.1 hp with hpq | hpmem
        · subst hpq
          refine ⟨c, by simp only [kind_render]; exact hg, ?_⟩
          have hfr := kinds_frame gyb ge aSL kinds _ r.1 r.2 (by rw [hrec]) out hnd.1
          rw [hfr, getFile_setFile_self]
          simp [rsync_content ⟨c, st.now⟩ (getFile st.dest out) (st.now + 1)]
        · exact ih _ r.1 r.2 (by rw [hrec]) hnd.2 p hpmem

theorem kinds_names : ∀ (kinds : List (String × String)) (st : SyncState)
    (st2 : SyncState) (ocs : List SyncOutcome),
    generate_base_kind_files gyb ge aSL kinds st = .ok (st2, ocs) →
    ∀ n, n ∈ names st2.dest ↔ n ∈ kinds.map Prod.snd ∨ n ∈ names st.dest := by
  intro kinds
  induction kinds with
  | nil =>
    intro st st2 ocs h n
    cases h
    simp
  | cons q kinds ih =>
    intro st st2 ocs h n
    obtain ⟨k, out⟩ := q
    rw [generate_base_kind_files] at h
    cases hg : gyb (gyb_command ge SYNTAX_NODES_TEMPLATE out aSL ["-DEMIT_KIND=" ++ k]) with
    | error e =>
      simp only [generate_single_gyb_file, hg] at h
      cases h
    | ok c =>
      simp only [generate_single_gyb_file, hg] at h
      cases hrec : generate_base_kind_files gyb ge aSL kinds
          ⟨setFile st.temp out ⟨c, st.now⟩,
           setFile st.dest out (rsync_checksum ⟨c, st.now⟩ (getFile st.dest out) (st.now + 1)).1,
           st.now + 2⟩ with
      | error e =>
        rw [hrec] at h
        cases h
      | ok r =>
        rw [hrec] at h
        cases h
        rw [ih _ r.1 r.2 (by rw [hrec]) n]
        rw [List.map_cons, List.mem_cons]
        show _ ∨ n ∈ names (setFile st.dest out _) ↔ _
        rw [mem_names_setFile]
        tauto

theorem kinds_nodup : ∀ (kinds : List (String × String)) (st : SyncState)
    (st2 : SyncState) (ocs : List SyncOutcome),
    generate_base_kind_files gyb ge aSL kinds st = .ok (st2, ocs) →
    (names st.dest).Nodup → (names st2.dest).Nodup := by
  intro kinds
  induction kinds with
  | nil =>
    intro st st2 ocs h hnd
    cases h
    exact hnd
  | cons q kinds ih =>
    intro st st2 ocs h hnd
    obtain ⟨k, out⟩ := q
    rw [generate_base_kind_files] at h
    cases hg : gyb (gyb_command ge SYNTAX_NODES_TEMPLATE out aSL ["-DEMIT_KIND=" ++ k]) with
    | error e =>
      simp only [generate_single_gyb_file, hg] at h
      cases h
    | ok c =>
      simp only [generate_single_gyb_file, hg] at h
      cases hrec : generate_base_kind_files gyb ge aSL kinds
          ⟨setFile st.temp out ⟨c, st.now⟩,
           setFile st.dest out (rsync_checksum ⟨c, st.now⟩ (getFile st.dest out) (st.now + 1)).1,
           st.now + 2⟩ with
      | error e =>
        rw [hrec] at h
        cases h
      | ok r =>
        rw [hrec] at h
        cases h
        exact ih _ r.1 r.2 (by rw [hrec]) (nodup_names_setFile _ _ _ hnd)

end Kinds

/-! ### More string and directory bridges -/

theorem str_append_right_cancel (s t u : String) (h : s ++ u = t ++ u) : s = t := by
  obtain ⟨sd⟩ := s
  obtain ⟨td⟩ := t
  obtain ⟨ud⟩ := u
  have hd : sd ++ ud = td ++ ud := congrArg String.data h
  have := List.append_cancel_right hd
  rw [this]

theorem strDropRight_of_append_gyb (n : String) : strDropRight (n ++ ".gyb") 4 = n := by
  have h1 := strDropRight_gyb_append (n ++ ".gyb") (strEndsWith_append n ".gyb")
  exact str_append_right_cancel _ _ ".gyb" h1

theorem mem_gyb_files (listing : List String) (f : String) :
    f ∈ gyb_files listing ↔ f ∈ listing ∧ strEndsWith f ".gyb" = true := by
  simp [gyb_files, List.mem_filter]

theorem mem_outputs_of_template (listing : List String) (n : String)
    (h : (n ++ ".gyb") ∈ listing) : n ∈ outputs listing := by
  rw [outputs, List.mem_map]
  refine ⟨n ++ ".gyb", ?_, strDropRight_of_append_gyb n⟩
  rw [mem_gyb_files]
  exact ⟨h, strEndsWith_append n ".gyb"⟩

theorem template_mem_of_mem_outputs (listing : List String) (n : String)
    (h : n ∈ outputs listing) : (n ++ ".gyb") ∈ listing := by
  rw [outputs, List.mem_map] at h
  obtain ⟨f, hf, hout⟩ := h
  rw [mem_gyb_files] at hf
  have := strDropRight_gyb_append f hf.2
  rw [hout] at this
  rw [this]
  exact hf.1

theorem outputs_nodup (listing : List String) (h : listing.Nodup) :
    (outputs listing).Nodup := by
  rw [outputs]
  refine List.Nodup.map_on ?_ (h.filter _)
  intro x hx y hy hxy
  rw [mem_gyb_files] at hx hy
  exact strDropRight_gyb_inj x y hx.2 hy.2 hxy

theorem getFile_mem (d : Dir) (n : String) (v : File) (h : getFile d n = some v) :
    (n, v) ∈ d := by
  induction d with
  | nil => cases h
  | cons p d ih =>
    obtain ⟨a, g⟩ := p
    by_cases hp : a = n
    · rw [getFile, if_pos hp] at h
      cases h
      subst hp
      exact List.mem_cons_self _ _
    · rw [getFile, if_neg hp] at h
      exact List.mem_cons_of_mem _ (ih h)

theorem visible_cons (p : String × File) (d : Dir) :
    visible (p :: d) =
      if strStartsWith p.1 "." = true then visible d else p :: visible d := by
  rw [visible, List.filter_cons]
  by_cases h : strStartsWith p.1 "." = true <;> simp [h, visible]

theorem getFile_visible (d : Dir) (n : String) :
    getFile (visible d) n =
      if strStartsWith n "." = true then none else getFile d n := by
  induction d with
  | nil =>
    by_cases hh : strStartsWith n "." = true <;> simp [visible, getFile, hh]
  | cons p d ih =>
    obtain ⟨a, g⟩ := p
    rw [visible_cons]
    by_cases ha : strStartsWith a "." = true
    · rw [if_pos ha, ih]
      by_cases hn : strStartsWith n "." = true
      · rw [if_pos hn, if_pos hn]
      · rw [if_neg hn, if_neg hn]
        have han : ¬a = n := fun hh => hn (hh ▸ ha)
        rw [getFile, if_neg han]
    · rw [if_neg ha]
      by_cases hp : a = n
      · subst hp
        rw [getFile, if_pos rfl, if_neg ha, getFile, if_pos rfl]
      · rw [getFile, if_neg hp, ih]
        by_cases hn : strStartsWith n "." = true
        · rw [if_pos hn, if_pos hn]
        · rw [if_neg hn, if_neg hn, getFile, if_neg hp]

theorem nodup_names_visible (d : Dir) (h : (names d).Nodup) :
    (names (visible d)).Nodup := by
  induction d with
  | nil => simp [visible, names]
  | cons p d ih =>
    obtain ⟨a, g⟩ := p
    rw [names_cons, List.nodup_cons] at h
    rw [visible_cons]
    by_cases ha : strStartsWith a "." = true
    · rw [if_pos ha]
      exact ih h.2
    · rw [if_neg ha, names_cons, List.nodup_cons]
      refine ⟨fun hc => ?_, ih h.2⟩
      rw [mem_names_iff_getFile, getFile_visible, if_neg ha] at hc
      exact h.1 ((mem_names_iff_getFile d a).2 hc)

/-- A sufficient condition for the recursive diff to succeed. -/
theorem dirs_match_of (a b : Dir)
    (hab : ∀ p ∈ visible a, ∃ f, getFile (visible b) p.1 = some f ∧ f.content = p.2.content)
    (hba : ∀ p ∈ visible b, ∃ f, getFile (visible a) p.1 = some f ∧ f.content = p.2.content) :
    dirs_match a b = true := by
  rw [dirs_match, Bool.and_eq_true]
  constructor
  · rw [List.all_eq_true]
    intro p hp
    obtain ⟨f, hf, hc⟩ := hab p hp
    simp [hf, hc]
  · rw [List.all_eq_true]
    intro p hp
    obtain ⟨f, hf, hc⟩ := hba p hp
    simp [hf, hc]

/-- What a successful recursive diff guarantees, looking from side `a`. -/
theorem dirs_match_getFile (a b : Dir) (h : dirs_match a b = true) (n : String)
    (v : File) (hn : getFile (visible a) n = some v) :
    ∃ w, getFile (visible b) n = some w ∧ w.content = v.content := by
  rw [dirs_match, Bool.and_eq_true] at h
  have hmem := getFile_mem (visible a) n v hn
  have := (List.all_eq_true.1 h.1) (n, v) hmem
  cases hw : getFile (visible b) n with
  | none =>
    rw [hw] at this
    cases this
  | some w =>
    rw [hw] at this
    exact ⟨w, rfl, by simpa using this⟩

theorem check_generated_files_match_ok (a b : Dir) (h : dirs_match a b = true) :
    check_generated_files_match a b = .ok () := by
  rw [check_generated_files_match, if_pos h]

theorem check_trees_match_ok (l : List (Tree × Tree))
    (h : ∀ p ∈ l, dirs_match p.1.dest p.2.dest = true) :
    check_trees_match l = .ok () := by
  induction l with
  | nil => rfl
  | cons p l ih =>
    obtain ⟨s, u⟩ := p
    rw [check_trees_match, check_generated_files_match_ok s.dest u.dest
      (h (s, u) (List.mem_cons_self _ _))]
    exact ih (fun q hq => h q (List.mem_cons_of_mem _ hq))

theorem check_trees_match_mem (l : List (Tree × Tree))
    (h : check_trees_match l = .ok ()) :
    ∀ p ∈ l, dirs_match p.1.dest p.2.dest = true := by
  induction l with
  | nil =>
    intro p hp
    cases hp
  | cons q l ih =>
    intro p hp
    obtain ⟨s, u⟩ := q
    rw [check_trees_match] at h
    by_cases hd : dirs_match s.dest u.dest = true
    · rcases List.mem_cons.1 hp with h1 | h1
      · rw [h1]
        exact hd
      · rw [check_generated_files_match, if_pos hd] at h
        exact ih h p h1
    · rw [check_generated_files_match, if_neg hd] at h
      cases h

theorem prune_nodes_deletes (rm : Rm) :
    ∀ (ns : List String) (d d' : Dir),
    prune_syntax_node_files_loop rm ns d = .ok d' →
    ∀ n, n ∈ ns → strEndsWith n ".swift" = true → n ∉ BASE_KIND_FILES.map Prod.snd →
    getFile d' n = none := by
  intro ns
  induction ns with
  | nil =>
    intro d d' _ n hn
    cases hn
  | cons f ns ih =>
    intro d d' h n hn hs ht
    rw [prune_syntax_node_files_loop] at h
    rcases List.mem_cons.1 hn with hnf | hnmem
    · subst hnf
      rw [if_pos hs, if_neg ht] at h
      cases hrm : rm n with
      | error e => rw [hrm] at h; cases h
      | ok u =>
        rw [hrm] at h
        exact prune_nodes_none rm ns (delFile d n) d' h n (getFile_delFile_self d n)
    · by_cases hfs : strEndsWith f ".swift" = true
      · rw [if_pos hfs] at h
        by_cases hft : f ∈ BASE_KIND_FILES.map Prod.snd
        · rw [if_pos hft] at h
          exact ih d d' h n hnmem hs ht
        · rw [if_neg hft] at h
          cases hrm : rm f with
          | error e => rw [hrm] at h; cases h
          | ok u =>
            rw [hrm] at h
            exact ih (delFile d f) d' h n hnmem hs ht
      · rw [if_neg hfs] at h
        exact ih d d' h n hnmem hs ht

/-! ### Lemmas on one helper invocation -/

theorem clear_names_iff (rm : Rm) (sources : List String) (dest dest1 : Dir)
    (h : clear_gyb_files_from_previous_run rm sources dest = .ok dest1) (n : String) :
    n ∈ names dest1 ↔
      n ∈ names dest ∧ (strEndsWith n ".swift" = true → (n ++ ".gyb") ∈ sources) := by
  rw [clear_gyb_files_from_previous_run] at h
  constructor
  · intro hn
    have hmem := clear_loop_names_subset rm sources (names dest) dest dest1 h n hn
    refine ⟨hmem, fun hs => ?_⟩
    by_contra ht
    have := clear_loop_deletes rm sources (names dest) dest dest1 h n hmem hs ht
    rw [mem_names_iff_getFile, this] at hn
    cases hn
  · rintro ⟨hmem, hk⟩
    rw [mem_names_iff_getFile, clear_loop_keeps rm sources (names dest) dest dest1 h n hk,
      ← mem_names_iff_getFile]
    exact hmem

section Helper

variable (gyb : Gyb) (rm : Rm) (ge : String) (aSL : Bool)

theorem helper_prune_error (t : Tree) (temp : Dir) (now : Nat) (e : CalledProcessError)
    (h : clear_gyb_files_from_previous_run rm t.listing t.dest = .error e) :
    generate_gyb_files_helper_run gyb rm ge aSL t temp now = .error e := by
  rw [generate_gyb_files_helper_run, h]

theorem helper_run_eq (t : Tree) (temp : Dir) (now : Nat) (dest1 : Dir)
    (h : clear_gyb_files_from_previous_run rm t.listing t.dest = .ok dest1) :
    generate_gyb_files_helper_run gyb rm ge aSL t temp now =
      .ok ((⟨t.path, t.listing,
              (executor_map_gyb gyb ge t.path aSL (gyb_files t.listing)
                ⟨temp, dest1, now⟩).1.dest⟩,
            (executor_map_gyb gyb ge t.path aSL (gyb_files t.listing)
              ⟨temp, dest1, now⟩).1.temp,
            (executor_map_gyb gyb ge t.path aSL (gyb_files t.listing)
              ⟨temp, dest1, now⟩).1.now),
           (executor_map_gyb gyb ge t.path aSL (gyb_files t.listing) ⟨temp, dest1, now⟩).2) := by
  rw [generate_gyb_files_helper_run, h]

/-- Everything one successful helper invocation guarantees about the
relationship of the resulting tree to the input tree. -/
def TreeGen (gyb : Gyb) (ge : String) (aSL : Bool) (t t1 : Tree) : Prop :=
  t1.path = t.path ∧ t1.listing = t.listing ∧
  (∀ f ∈ gyb_files t.listing, ∀ c, task_render gyb ge t.path aSL f = .ok c →
    (getFile t1.dest (strDropRight f 4)).map File.content = some c) ∧
  (∀ n, (strEndsWith n ".swift" = true → (n ++ ".gyb") ∈ t.listing) →
    n ∉ outputs t.listing → getFile t1.dest n = getFile t.dest n) ∧
  ((names t.dest).Nodup → (names t1.dest).Nodup) ∧
  ((∀ f ∈ gyb_files t.listing, ∃ c, task_render gyb ge t.path aSL f = .ok c) →
    ∀ n, n ∈ names t1.dest ↔
      n ∈ outputs t.listing ∨
      (n ∈ names t.dest ∧ (strEndsWith n ".swift" = true → (n ++ ".gyb") ∈ t.listing)))

theorem helper_char (t : Tree) (temp : Dir) (now : Nat)
    (t1 : Tree) (temp1 : Dir) (now1 : Nat)
    (log : List (String × Except CalledProcessError SyncOutcome))
    (hnd : t.listing.Nodup)
    (h : generate_gyb_files_helper_run gyb rm ge aSL t temp now = .ok ((t1, temp1, now1), log)) :
    TreeGen gyb ge aSL t t1 := by
  cases hcl : clear_gyb_files_from_previous_run rm t.listing t.dest with
  | error e =>
    rw [helper_prune_error gyb rm ge aSL t temp now e hcl] at h
    cases h
  | ok dest1 =>
    rw [helper_run_eq gyb rm ge aSL t temp now dest1 hcl] at h
    cases h
    have hond : ((gyb_files t.listing).map (fun f => strDropRight f 4)).Nodup :=
      outputs_nodup t.listing hnd
    refine ⟨rfl, rfl, ?_, ?_, ?_, ?_⟩
    · intro f hf c hc
      exact (executor_content gyb ge t.path aSL (gyb_files t.listing)
        ⟨temp, dest1, now⟩ hond f hf c hc).1
    · intro n hkeep hout
      have hfr := (executor_frame gyb ge t.path aSL (gyb_files t.listing)
        ⟨temp, dest1, now⟩ n hout).1
      rw [hfr]
      exact clear_loop_keeps rm t.listing (names t.dest) t.dest dest1 hcl n hkeep
    · intro hdnd
      exact executor_nodup gyb ge t.path aSL (gyb_files t.listing) ⟨temp, dest1, now⟩
        (clear_loop_nodup rm t.listing (names t.dest) t.dest dest1 hcl hdnd)
    · intro hok n
      rw [executor_names gyb ge t.path aSL (gyb_files t.listing) ⟨temp, dest1, now⟩ hok n]
      show n ∈ outputs t.listing ∨ n ∈ names dest1 ↔ _
      rw [clear_names_iff rm t.listing t.dest dest1 hcl n]

theorem helper_temp_content (t : Tree) (temp : Dir) (now : Nat)
    (t1 : Tree) (temp1 : Dir) (now1 : Nat)
    (log : List (String × Except CalledProcessError SyncOutcome))
    (hnd : t.listing.Nodup)
    (h : generate_gyb_files_helper_run gyb rm ge aSL t temp now = .ok ((t1, temp1, now1), log))
    (f : String) (hf : f ∈ gyb_files t.listing) (c : String)
    (hc : task_render gyb ge t.path aSL f = .ok c) :
    (getFile temp1 (strDropRight f 4)).map File.content = some c := by
  cases hcl : clear_gyb_files_from_previous_run rm t.listing t.dest with
  | error e =>
    rw [helper_prune_error gyb rm ge aSL t temp now e hcl] at h
    cases h
  | ok dest1 =>
    rw [helper_run_eq gyb rm ge aSL t temp now dest1 hcl] at h
    cases h
    exact (executor_content gyb ge t.path aSL (gyb_files t.listing)
      ⟨temp, dest1, now⟩ (outputs_nodup t.listing hnd) f hf c hc).2

theorem helper_stable (t : Tree) (temp : Dir) (now : Nat)
    (hkept : ∀ n ∈ names t.dest, strEndsWith n ".swift" = true → (n ++ ".gyb") ∈ t.listing)
    (hst : ∀ f ∈ gyb_files t.listing, ∃ c df, task_render gyb ge t.path aSL f = .ok c ∧
      getFile t.dest (strDropRight f 4) = some df ∧ df.content = c) :
    ∃ temp1 now1 log,
      generate_gyb_files_helper_run gyb rm ge aSL t temp now = .ok ((t, temp1, now1), log) ∧
      ∀ r ∈ log, r.2 = .ok .Unchanged := by
  have hcl : clear_gyb_files_from_previous_run rm t.listing t.dest = .ok t.dest :=
    clear_loop_noop rm t.listing (names t.dest) t.dest hkept
  obtain ⟨hd, hlog⟩ :=
    executor_stable gyb ge t.path aSL (gyb_files t.listing) ⟨temp, t.dest, now⟩ hst
  refine ⟨(executor_map_gyb gyb ge t.path aSL (gyb_files t.listing) ⟨temp, t.dest, now⟩).1.temp,
      (executor_map_gyb gyb ge t.path aSL (gyb_files t.listing) ⟨temp, t.dest, now⟩).1.now,
      (executor_map_gyb gyb ge t.path aSL (gyb_files t.listing) ⟨temp, t.dest, now⟩).2,
      ?_, hlog⟩
  rw [helper_run_eq gyb rm ge aSL t temp now t.dest hcl, hd]

end Helper

/-! ### Lemmas on the sequence of helper invocations -/

section Helpers

variable (gyb : Gyb) (rm : Rm) (ge : String) (aSL : Bool)

theorem run_helpers_char : ∀ (ts : List Tree) (temp : Dir) (now : Nat)
    (ts1 : List Tree) (temp1 : Dir) (now1 : Nat)
    (futs : List (String × Except CalledProcessError SyncOutcome)),
    run_helpers gyb rm ge aSL ts temp now = .ok ((ts1, temp1, now1), futs) →
    (∀ t ∈ ts, t.listing.Nodup) →
    List.Forall₂ (TreeGen gyb ge aSL) ts ts1 := by
  intro ts
  induction ts with
  | nil =>
    intro temp now ts1 temp1 now1 futs h _
    cases h
    exact List.Forall₂.nil
  | cons t ts ih =>
    intro temp now ts1 temp1 now1 futs h hnd
    rw [run_helpers] at h
    cases hh : generate_gyb_files_helper_run gyb rm ge aSL t temp now with
    | error e =>
      rw [hh] at h
      cases h
    | ok r =>
      obtain ⟨⟨t1, tempA, nowA⟩, fut⟩ := r
      simp only [hh] at h
      cases hr : run_helpers gyb rm ge aSL ts tempA nowA with
      | error e =>
        rw [hr] at h
        cases h
      | ok r2 =>
        obtain ⟨⟨ts2, tempB, nowB⟩, futs2⟩ := r2
        rw [hr] at h
        cases h
        exact List.Forall₂.cons
          (helper_char gyb rm ge aSL t temp now t1 tempA nowA fut
            (hnd t (List.mem_cons_self _ _)) hh)
          (ih tempA nowA ts2 _ _ _ hr
            (fun u hu => hnd u (List.mem_cons_of_mem _ hu)))

theorem run_helpers_stable : ∀ (ts : List Tree) (temp : Dir) (now : Nat),
    (∀ t ∈ ts,
      (∀ n ∈ names t.dest, strEndsWith n ".swift" = true → (n ++ ".gyb") ∈ t.listing) ∧
      (∀ f ∈ gyb_files t.listing, ∃ c df, task_render gyb ge t.path aSL f = .ok c ∧
        getFile t.dest (strDropRight f 4) = some df ∧ df.content = c)) →
    ∃ temp1 now1 futs,
      run_helpers gyb rm ge aSL ts temp now = .ok ((ts, temp1, now1), futs) ∧
      ∀ r ∈ futs, r.2 = .ok .Unchanged := by
  intro ts
  induction ts with
  | nil =>
    intro temp now _
    exact ⟨temp, now, [], rfl, by intro r hr; cases hr⟩
  | cons t ts ih =>
    intro temp now hst
    obtain ⟨hkept, hstf⟩ := hst t (List.mem_cons_self _ _)
    obtain ⟨tempA, nowA, log, hh, hlog⟩ :=
      helper_stable gyb rm ge aSL t temp now hkept hstf
    obtain ⟨tempB, nowB, futs2, hr, hlog2⟩ :=
      ih tempA nowA (fun u hu => hst u (List.mem_cons_of_mem _ hu))
    refine ⟨tempB, nowB, log ++ futs2, ?_, ?_⟩
    · simp only [run_helpers, hh, hr]
    · intro r hr2
      rcases List.mem_append.1 hr2 with h1 | h1
      · exact hlog r h1
      · exact hlog2 r h1

theorem run_helpers_empty_dest : ∀ (ts : List Tree) (temp : Dir) (now : Nat),
    (∀ t ∈ ts, t.dest = []) →
    ∃ ts1 temp1 now1 futs,
      run_helpers gyb rm ge aSL ts temp now = .ok ((ts1, temp1, now1), futs) := by
  intro ts
  induction ts with
  | nil =>
    intro temp now _
    exact ⟨[], temp, now, [], rfl⟩
  | cons t ts ih =>
    intro temp now hdest
    have hd := hdest t (List.mem_cons_self _ _)
    have hcl : clear_gyb_files_from_previous_run rm t.listing t.dest = .ok t.dest := by
      rw [hd]
      rfl
    have hh := helper_run_eq gyb rm ge aSL t temp now t.dest hcl
    obtain ⟨ts1, temp1, now1, futs, hr⟩ :=
      ih (executor_map_gyb gyb ge t.path aSL (gyb_files t.listing) ⟨temp, t.dest, now⟩).1.temp
        (executor_map_gyb gyb ge t.path aSL (gyb_files t.listing) ⟨temp, t.dest, now⟩).1.now
        (fun u hu => hdest u (List.mem_cons_of_mem _ hu))
    refine ⟨⟨t.path, t.listing,
        (executor_map_gyb gyb ge t.path aSL (gyb_files t.listing)
          ⟨temp, t.dest, now⟩).1.dest⟩ :: ts1,
      temp1, now1,
      (executor_map_gyb gyb ge t.path aSL (gyb_files t.listing) ⟨temp, t.dest, now⟩).2 ++ futs,
      ?_⟩
    simp only [run_helpers, hh, hr]

end Helpers

/-! ### Lemmas on the whole syntax-node expansion step -/

section Nodes

variable (gyb : Gyb) (rm : Rm) (ge : String) (aSL : Bool)

theorem nodes_prune_names_iff (nodes nodes1 : Dir)
    (h : prune_syntax_node_files_loop rm (names nodes) nodes = .ok nodes1) (n : String) :
    n ∈ names nodes1 ↔
      n ∈ names nodes ∧
      (strEndsWith n ".swift" = true → n ∈ BASE_KIND_FILES.map Prod.snd) := by
  constructor
  · intro hn
    have hmem : n ∈ names nodes := by
      rw [mem_names_iff_getFile] at hn ⊢
      by_cases hd : getFile nodes n = none
      · rw [prune_nodes_none rm (names nodes) nodes nodes1 h n hd] at hn
        cases hn
      · cases hg : getFile nodes n with
        | none => exact absurd hg hd
        | some v => rfl
    refine ⟨hmem, fun hs => ?_⟩
    by_contra ht
    have := prune_nodes_deletes rm (names nodes) nodes nodes1 h n hmem hs ht
    rw [mem_names_iff_getFile, this] at hn
    cases hn
  · rintro ⟨hmem, hk⟩
    rw [mem_names_iff_getFile, prune_nodes_keeps rm (names nodes) nodes nodes1 h n hk,
      ← mem_names_iff_getFile]
    exact hmem

theorem nodes_run_eq (nodes temp : Dir) (now : Nat) (nodes1 : Dir)
    (hpr : prune_syntax_node_files_loop rm (names nodes) nodes = .ok nodes1)
    (st2 : SyncState) (ocs : List SyncOutcome)
    (hk : generate_base_kind_files gyb ge aSL BASE_KIND_FILES ⟨temp, nodes1, now⟩ =
      .ok (st2, ocs)) :
    generate_syntax_node_template_gyb_files gyb rm ge aSL nodes temp now =
      .ok ((st2.dest, st2.temp, st2.now), ocs) := by
  simp only [generate_syntax_node_template_gyb_files, hpr, hk]

theorem nodes_char (nodes temp : Dir) (now : Nat)
    (nodes2 temp2 : Dir) (now2 : Nat) (ocs : List SyncOutcome)
    (h : generate_syntax_node_template_gyb_files gyb rm ge aSL nodes temp now =
      .ok ((nodes2, temp2, now2), ocs)) :
    (∀ p ∈ BASE_KIND_FILES, ∃ c, kind_render gyb ge aSL p = .ok c ∧
      (getFile nodes2 p.2).map File.content = some c) ∧
    (∀ n, n ∈ names nodes2 ↔
      n ∈ BASE_KIND_FILES.map Prod.snd ∨
      (n ∈ names nodes ∧
        (strEndsWith n ".swift" = true → n ∈ BASE_KIND_FILES.map Prod.snd))) ∧
    ((names nodes).Nodup → (names nodes2).Nodup) ∧
    (∀ n, (strEndsWith n ".swift" = true → n ∈ BASE_KIND_FILES.map Prod.snd) →
      n ∉ BASE_KIND_FILES.map Prod.snd → getFile nodes2 n = getFile nodes n) := by
  rw [generate_syntax_node_template_gyb_files] at h
  cases hpr : prune_syntax_node_files_loop rm (names nodes) nodes with
  | error e =>
    rw [hpr] at h
    cases h
  | ok nodes1 =>
    simp only [hpr] at h
    cases hk : generate_base_kind_files gyb ge aSL BASE_KIND_FILES ⟨temp, nodes1, now⟩ with
    | error e =>
      rw [hk] at h
      cases h
    | ok r =>
      obtain ⟨st2, ocs2⟩ := r
      rw [hk] at h
      cases h
      refine ⟨?_, ?_, ?_, ?_⟩
      · intro p hp
        exact kinds_content gyb ge aSL BASE_KIND_FILES ⟨temp, nodes1, now⟩ st2 _ hk
          (by decide) p hp
      · intro n
        rw [kinds_names gyb ge aSL BASE_KIND_FILES ⟨temp, nodes1, now⟩ st2 _ hk n]
        show _ ∨ n ∈ names nodes1 ↔ _
        rw [nodes_prune_names_iff rm nodes nodes1 hpr n]
      · intro hnd
        exact kinds_nodup gyb ge aSL BASE_KIND_FILES ⟨temp, nodes1, now⟩ st2 _ hk
          (prune_nodes_nodup rm (names nodes) nodes nodes1 hpr hnd)
      · intro n hkeep hout
        rw [kinds_frame gyb ge aSL BASE_KIND_FILES ⟨temp, nodes1, now⟩ st2 _ hk n hout]
        exact prune_nodes_keeps rm (names nodes) nodes nodes1 hpr n hkeep

theorem nodes_stable (nodes temp : Dir) (now : Nat)
    (hkept : ∀ n ∈ names nodes,
      strEndsWith n ".swift" = true → n ∈ BASE_KIND_FILES.map Prod.snd)
    (hst : ∀ p ∈ BASE_KIND_FILES, ∃ c df, kind_render gyb ge aSL p = .ok c ∧
      getFile nodes p.2 = some df ∧ df.content = c) :
    ∃ temp2 now2 ocs,
      generate_syntax_node_template_gyb_files gyb rm ge aSL nodes temp now =
        .ok ((nodes, temp2, now2), ocs) ∧
      ∀ oc ∈ ocs, oc = SyncOutcome.Unchanged := by
  have hpr : prune_syntax_node_files_loop rm (names nodes) nodes = .ok nodes :=
    prune_nodes_noop rm (names nodes) nodes hkept
  obtain ⟨st2, ocs, hk, hdest, hocs⟩ :=
    kinds_stable gyb ge aSL BASE_KIND_FILES ⟨temp, nodes, now⟩ hst
  refine ⟨st2.temp, st2.now, ocs, ?_, hocs⟩
  rw [nodes_run_eq gyb rm ge aSL nodes temp now nodes hpr st2 ocs hk, hdest]

theorem kinds_ok_of_renders : ∀ (kinds : List (String × String)) (st : SyncState),
    (∀ p ∈ kinds, ∃ c, kind_render gyb ge aSL p = .ok c) →
    ∃ st2 ocs, generate_base_kind_files gyb ge aSL kinds st = .ok (st2, ocs) := by
  intro kinds
  induction kinds with
  | nil =>
    intro st _
    exact ⟨st, [], rfl⟩
  | cons q kinds ih =>
    intro st hok
    obtain ⟨k, out⟩ := q
    obtain ⟨c, hc⟩ := hok (k, out) (List.mem_cons_self _ _)
    simp only [kind_render] at hc
    obtain ⟨st2, ocs, hrec⟩ := ih
      ⟨setFile st.temp out ⟨c, st.now⟩,
       setFile st.dest out (rsync_checksum ⟨c, st.now⟩ (getFile st.dest out) (st.now + 1)).1,
       st.now + 2⟩
      (fun p hp => hok p (List.mem_cons_of_mem _ hp))
    refine ⟨st2,
      (rsync_checksum ⟨c, st.now⟩ (getFile st.dest out) (st.now + 1)).2 :: ocs, ?_⟩
    rw [generate_base_kind_files]
    simp only [generate_single_gyb_file, hc]
    rw [hrec]

end Nodes

/-! ### Lemmas on a whole generate run -/

theorem forall₂_mem_right {α β : Type} {R : α → β → Prop} :
    ∀ {l : List α} {l1 : List β}, List.Forall₂ R l l1 →
    ∀ b ∈ l1, ∃ a ∈ l, R a b := by
  intro l l1 h
  induction h with
  | nil =>
    intro b hb
    cases hb
  | cons hR htail ih =>
    intro b hb
    rcases List.mem_cons.1 hb with h2 | h2
    · exact ⟨_, List.mem_cons_self _ _, h2 ▸ hR⟩
    · obtain ⟨a, ha, hRa⟩ := ih b h2
      exact ⟨a, List.mem_cons_of_mem _ ha, hRa⟩

section Run

variable (gyb : Gyb) (rm : Rm) (ge : String) (aSL : Bool)

theorem generate_run_eq (w : World) (ts1 : List Tree) (temp1 : Dir) (now1 : Nat)
    (futs : List (String × Except CalledProcessError SyncOutcome))
    (hr : run_helpers gyb rm ge aSL w.trees w.temp w.now = .ok ((ts1, temp1, now1), futs))
    (nodes2 temp2 : Dir) (now2 : Nat) (ocs : List SyncOutcome)
    (hn : generate_syntax_node_template_gyb_files gyb rm ge aSL w.nodes temp1 now1 =
      .ok ((nodes2, temp2, now2), ocs)) :
    generate_gyb_files_run gyb rm ge aSL w = .ok (⟨ts1, nodes2, temp2, now2⟩, ⟨futs, ocs⟩) := by
  simp only [generate_gyb_files_run, hr, hn]

theorem generate_run_cases (w w1 : World) (log1 : RunLog)
    (h : generate_gyb_files_run gyb rm ge aSL w = .ok (w1, log1)) :
    ∃ temp1 now1,
      run_helpers gyb rm ge aSL w.trees w.temp w.now =
        .ok ((w1.trees, temp1, now1), log1.futures) ∧
      generate_syntax_node_template_gyb_files gyb rm ge aSL w.nodes temp1 now1 =
        .ok ((w1.nodes, w1.temp, w1.now), log1.nodeOutcomes) := by
  rw [generate_gyb_files_run] at h
  cases hr : run_helpers gyb rm ge aSL w.trees w.temp w.now with
  | error e =>
    rw [hr] at h
    cases h
  | ok r =>
    obtain ⟨⟨ts1, temp1, now1⟩, futs⟩ := r
    simp only [hr] at h
    cases hn : generate_syntax_node_template_gyb_files gyb rm ge aSL w.nodes temp1 now1 with
    | error e =>
      rw [hn] at h
      cases h
    | ok r2 =>
      obtain ⟨⟨nodes2, temp2, now2⟩, ocs⟩ := r2
      rw [hn] at h
      cases h
      exact ⟨temp1, now1, rfl, hn⟩

end Run

/-! ### Verification lemmas -/

theorem forall₂_flip_impl {α β : Type} {R : α → β → Prop} {S : β → α → Prop} :
    ∀ {l : List α} {l1 : List β}, List.Forall₂ R l l1 →
    (∀ a b, a ∈ l → b ∈ l1 → R a b → S b a) → List.Forall₂ S l1 l := by
  intro l l1 h
  induction h with
  | nil =>
    intro _
    exact List.Forall₂.nil
  | cons hR htail ih =>
    intro himp
    refine List.Forall₂.cons
      (himp _ _ (List.mem_cons_self _ _) (List.mem_cons_self _ _) hR) (ih ?_)
    intro a b ha hb hr
    exact himp a b (List.mem_cons_of_mem _ ha) (List.mem_cons_of_mem _ hb) hr

theorem forall₂_zip_mem_right {α β : Type} {R : α → β → Prop} :
    ∀ {l : List α} {l1 : List β}, List.Forall₂ R l l1 →
    ∀ b ∈ l1, ∃ a, (a, b) ∈ l.zip l1 ∧ R a b := by
  intro l l1 h
  induction h with
  | nil =>
    intro b hb
    cases hb
  | cons hR htail ih =>
    intro b hb
    rcases List.mem_cons.1 hb with h2 | h2
    · subst h2
      exact ⟨_, List.mem_cons_self _ _, hR⟩
    · obtain ⟨a, ha, hRa⟩ := ih b h2
      exact ⟨a, List.mem_cons_of_mem _ ha, hRa⟩

theorem mem_visible (d : Dir) (p : String × File) (hp : p ∈ visible d) :
    p ∈ d ∧ ¬strStartsWith p.1 "." = true := by
  refine ⟨List.mem_of_mem_filter hp, ?_⟩
  have := List.of_mem_filter hp
  simpa using this

/-- After one generate into the user tree and one into an empty scratch tree,
the recursive diff of the two destinations succeeds, provided the renderer is
deterministic (it is a function), every template renders, and the user
destination held nothing but hidden files, previously generated `.swift`
files, and current outputs. -/
theorem tree_verify_match (gyb : Gyb) (ge : String) (t t1 ts : Tree)
    (hdnd : (names t.dest).Nodup)
    (hclean : ∀ n ∈ names t.dest, ¬strStartsWith n "." = true →
      strEndsWith n ".swift" = true ∨ n ∈ outputs t.listing)
    (hok : ∀ f ∈ gyb_files t.listing, ∃ c, task_render gyb ge t.path false f = .ok c)
    (htg1 : TreeGen gyb ge false t t1)
    (htgs : TreeGen gyb ge false ⟨t.path, t.listing, []⟩ ts) :
    dirs_match ts.dest t1.dest = true := by
  obtain ⟨_, _, hcont1, _, hndp1, hnames1⟩ := htg1
  obtain ⟨_, _, hconts, _, hndps, hnamess⟩ := htgs
  have hnds1 : (names t1.dest).Nodup := hndp1 hdnd
  have hndss : (names ts.dest).Nodup := hndps (by simp [names])
  have hnamess2 : ∀ n, n ∈ names ts.dest ↔ n ∈ outputs t.listing := by
    intro n
    rw [hnamess hok n]
    simp [names]
  have hcommon : ∀ n, n ∈ outputs t.listing →
      ∃ c, (getFile ts.dest n).map File.content = some c ∧
        (getFile t1.dest n).map File.content = some c := by
    intro n hn
    have hn2 := hn
    rw [outputs, List.mem_map] at hn2
    obtain ⟨f, hf, rfl⟩ := hn2
    obtain ⟨c, hc⟩ := hok f hf
    exact ⟨c, hconts f hf c hc, hcont1 f hf c hc⟩
  apply dirs_match_of
  · intro p hp
    obtain ⟨hpin, hvis⟩ := mem_visible ts.dest p hp
    have hget : getFile ts.dest p.1 = some p.2 := getFile_of_mem_nodup ts.dest p hndss hpin
    have hout : p.1 ∈ outputs t.listing := by
      refine (hnamess2 p.1).1 ?_
      rw [mem_names_iff_getFile, hget]
      rfl
    obtain ⟨c, hcs, hc1⟩ := hcommon p.1 hout
    rw [hget] at hcs
    cases hg1 : getFile t1.dest p.1 with
    | none =>
      rw [hg1] at hc1
      cases hc1
    | some v =>
      rw [hg1] at hc1
      refine ⟨v, ?_, ?_⟩
      · rw [getFile_visible, if_neg hvis, hg1]
      · have h1 : v.content = c := by simpa using hc1
        have h2 : p.2.content = c := by simpa using hcs
        rw [h1, h2]
  · intro p hp
    obtain ⟨hpin, hvis⟩ := mem_visible t1.dest p hp
    have hget : getFile t1.dest p.1 = some p.2 := getFile_of_mem_nodup t1.dest p hnds1 hpin
    have hmem : p.1 ∈ names t1.dest := by
      rw [mem_names_iff_getFile, hget]
      rfl
    have hout : p.1 ∈ outputs t.listing := by
      rcases (hnames1 hok p.1).1 hmem with h1 | h1
      · exact h1
      · rcases hclean p.1 h1.1 hvis with h2 | h2
        · exact mem_outputs_of_template t.listing p.1 (h1.2 h2)
        · exact h2
    obtain ⟨c, hcs, hc1⟩ := hcommon p.1 hout
    rw [hget] at hc1
    cases hgs : getFile ts.dest p.1 with
    | none =>
      rw [hgs] at hcs
      cases hcs
    | some v =>
      rw [hgs] at hcs
      refine ⟨v, ?_, ?_⟩
      · rw [getFile_visible, if_neg hvis, hgs]
      · have h1 : v.content = c := by simpa using hcs
        have h2 : p.2.content = c := by simpa using hc1
        rw [h1, h2]

/-- The analogue of `tree_verify_match` for the `syntax_nodes` destination. -/
theorem nodes_verify_match (gyb : Gyb) (ge : String) (nodes0 nodes1 nodesS : Dir)
    (hclean : ∀ n ∈ names nodes0, ¬strStartsWith n "." = true →
      strEndsWith n ".swift" = true)
    (hcont1 : ∀ p ∈ BASE_KIND_FILES, ∃ c, kind_render gyb ge false p = .ok c ∧
      (getFile nodes1 p.2).map File.content = some c)
    (hnames1 : ∀ n, n ∈ names nodes1 ↔
      n ∈ BASE_KIND_FILES.map Prod.snd ∨
      (n ∈ names nodes0 ∧ (strEndsWith n ".swift" = true → n ∈ BASE_KIND_FILES.map Prod.snd)))
    (hnd1 : (names nodes1).Nodup)
    (hcontS : ∀ p ∈ BASE_KIND_FILES, ∃ c, kind_render gyb ge false p = .ok c ∧
      (getFile nodesS p.2).map File.content = some c)
    (hnamesS : ∀ n, n ∈ names nodesS ↔ n ∈ BASE_KIND_FILES.map Prod.snd)
    (hndS : (names nodesS).Nodup) :
    dirs_match nodesS nodes1 = true := by
  have hcommon : ∀ n, n ∈ BASE_KIND_FILES.map Prod.snd →
      ∃ c, (getFile nodesS n).map File.content = some c ∧
        (getFile nodes1 n).map File.content = some c := by
    intro n hn
    rw [List.mem_map] at hn
    obtain ⟨p, hp, rfl⟩ := hn
    obtain ⟨c1, hk1, hg1⟩ := hcont1 p hp
    obtain ⟨cS, hkS, hgS⟩ := hcontS p hp
    rw [hk1] at hkS
    cases hkS
    exact ⟨c1, hgS, hg1⟩
  apply dirs_match_of
  · intro p hp
    obtain ⟨hpin, hvis⟩ := mem_visible nodesS p hp
    have hget : getFile nodesS p.1 = some p.2 := getFile_of_mem_nodup nodesS p hndS hpin
    have hout : p.1 ∈ BASE_KIND_FILES.map Prod.snd := by
      refine (hnamesS p.1).1 ?_
      rw [mem_names_iff_getFile, hget]
      rfl
    obtain ⟨c, hcs, hc1⟩ := hcommon p.1 hout
    rw [hget] at hcs
    cases hg1 : getFile nodes1 p.1 with
    | none =>
      rw [hg1] at hc1
      cases hc1
    | some v =>
      rw [hg1] at hc1
      refine ⟨v, ?_, ?_⟩
      · rw [getFile_visible, if_neg hvis, hg1]
      · have h1 : v.content = c := by simpa using hc1
        have h2 : p.2.content = c := by simpa using hcs
        rw [h1, h2]
  · intro p hp
    obtain ⟨hpin, hvis⟩ := mem_visible nodes1 p hp
    have hget : getFile nodes1 p.1 = some p.2 := getFile_of_mem_nodup nodes1 p hnd1 hpin
    have hmem : p.1 ∈ names nodes1 := by
      rw [mem_names_iff_getFile, hget]
      rfl
    have hout : p.1 ∈ BASE_KIND_FILES.map Prod.snd := by
      rcases (hnames1 p.1).1 hmem with h1 | h1
      · exact h1
      · exact h1.2 (hclean p.1 h1.1 hvis)
    obtain ⟨c, hcs, hc1⟩ := hcommon p.1 hout
    rw [hget] at hc1
    cases hgs : getFile nodesS p.1 with
    | none =>
      rw [hgs] at hcs
      cases hcs
    | some v =>
      rw [hgs] at hcs
      refine ⟨v, ?_, ?_⟩
      · rw [getFile_visible, if_neg hvis, hgs]
      · have h1 : v.content = c := by simpa using hcs
        have h2 : p.2.content = c := by simpa using hc1
        rw [h1, h2]

/-- C3 (amended): verify immediately after a successful generate on the same
unchanged source tree reports Ok, provided generate ran with source-location
annotations disabled and every non-hidden file in the destination trees is a
generated `.swift` file or a template output (hand-placed foreign files and
annotated generation are exactly the situations in which it fails). -/
theorem verify_after_generate_ok (gyb : Gyb) (rm : Rm) (ge : String)
    (w w1 : World) (log1 : RunLog)
    (hnd : ∀ t ∈ w.trees, t.listing.Nodup)
    (hdnd : ∀ t ∈ w.trees, (names t.dest).Nodup)
    (hclean : ∀ t ∈ w.trees, ∀ n ∈ names t.dest, ¬strStartsWith n "." = true →
      strEndsWith n ".swift" = true ∨ n ∈ outputs t.listing)
    (hok : ∀ t ∈ w.trees, ∀ f ∈ gyb_files t.listing,
      ∃ c, task_render gyb ge t.path false f = .ok c)
    (hgnd : (names w.nodes).Nodup)
    (hgclean : ∀ n ∈ names w.nodes, ¬strStartsWith n "." = true →
      strEndsWith n ".swift" = true)
    (h1 : generate_gyb_files_run gyb rm ge false w = .ok (w1, log1)) :
    verify_generated_files gyb rm ge w1 = .ok () := by
  obtain ⟨temp1, now1, hr1, hn1⟩ := generate_run_cases gyb rm ge false w w1 log1 h1
  have hchar1 := run_helpers_char gyb rm ge false w.trees w.temp w.now w1.trees temp1 now1
    log1.futures hr1 hnd
  obtain ⟨hncont1, hnnames1, hnnodup1, _⟩ := nodes_char gyb rm ge false w.nodes temp1 now1
    w1.nodes w1.temp w1.now log1.nodeOutcomes hn1
  -- the scratch regeneration over empty destinations succeeds
  obtain ⟨ts1, tempA, nowA, futsS, hrS⟩ := run_helpers_empty_dest gyb rm ge false
    (w1.trees.map (fun t => ⟨t.path, t.listing, []⟩)) w1.temp w1.now
    (by
      intro t0 ht0
      rw [List.mem_map] at ht0
      obtain ⟨u, hu, rfl⟩ := ht0
      rfl)
  have hndscr : ∀ t0 ∈ w1.trees.map (fun t => (⟨t.path, t.listing, []⟩ : Tree)),
      t0.listing.Nodup := by
    intro t0 ht0
    rw [List.mem_map] at ht0
    obtain ⟨u, hu, rfl⟩ := ht0
    obtain ⟨t, ht, htg⟩ := forall₂_mem_right hchar1 u hu
    show u.listing.Nodup
    rw [htg.2.1]
    exact hnd t ht
  have hcharS := run_helpers_char gyb rm ge false
    (w1.trees.map (fun t => ⟨t.path, t.listing, []⟩)) w1.temp w1.now ts1 tempA nowA
    futsS hrS hndscr
  have hS2 : List.Forall₂
      (fun u ts => TreeGen gyb ge false ⟨u.path, u.listing, []⟩ ts) w1.trees ts1 :=
    List.forall₂_map_left_iff.1 hcharS
  -- the scratch base-kind expansion succeeds
  have hkok : ∀ p ∈ BASE_KIND_FILES, ∃ c, kind_render gyb ge false p = .ok c := by
    intro p hp
    obtain ⟨c, hc, _⟩ := hncont1 p hp
    exact ⟨c, hc⟩
  obtain ⟨st2, ocsS, hkS⟩ := kinds_ok_of_renders gyb ge false BASE_KIND_FILES
    ⟨tempA, [], nowA⟩ hkok
  have hprS : prune_syntax_node_files_loop rm (names ([] : Dir)) [] = .ok [] := rfl
  have hnS : generate_syntax_node_template_gyb_files gyb rm ge false [] tempA nowA =
      .ok ((st2.dest, st2.temp, st2.now), ocsS) :=
    nodes_run_eq gyb rm ge false [] tempA nowA [] hprS st2 ocsS hkS
  have hrunS : generate_gyb_files_run gyb rm ge false (scratch_world w1) =
      .ok (⟨ts1, st2.dest, st2.temp, st2.now⟩, ⟨futsS, ocsS⟩) :=
    generate_run_eq gyb rm ge false (scratch_world w1) ts1 tempA nowA futsS hrS
      st2.dest st2.temp st2.now ocsS hnS
  have hgen : generate_gyb_files gyb rm ge false (scratch_world w1) =
      .ok ⟨ts1, st2.dest, st2.temp, st2.now⟩ := by
    rw [generate_gyb_files, hrunS]
    rfl
  -- characterize the scratch syntax-node destination
  obtain ⟨hncontS, hnnamesS, hnnodupS, _⟩ := nodes_char gyb rm ge false [] tempA nowA
    st2.dest st2.temp st2.now ocsS hnS
  -- pairwise diff of the trees
  have hd : List.Forall₂ (fun ts u => dirs_match ts.dest u.dest = true) ts1 w1.trees := by
    refine forall₂_flip_impl hS2 ?_
    intro u ts hu hts htgS
    obtain ⟨t, ht, htg1⟩ := forall₂_mem_right hchar1 u hu
    have heq : (⟨u.path, u.listing, []⟩ : Tree) = ⟨t.path, t.listing, []⟩ := by
      rw [htg1.1, htg1.2.1]
    rw [heq] at htgS
    exact tree_verify_match gyb ge t u ts (hdnd t ht) (hclean t ht) (hok t ht) htg1 htgS
  have hctm : check_trees_match (ts1.zip w1.trees) = .ok () := by
    refine check_trees_match_ok _ ?_
    intro p hp
    obtain ⟨a, b⟩ := p
    exact List.forall₂_zip hd hp
  -- diff of the node destinations
  have hdn : dirs_match st2.dest w1.nodes = true := by
    refine nodes_verify_match gyb ge w.nodes w1.nodes st2.dest hgclean hncont1 hnnames1
      (hnnodup1 hgnd) hncontS ?_ (hnnodupS (by simp [names]))
    intro n
    rw [hnnamesS n]
    simp [names]
  rw [verify_generated_files]
  simp only [hgen]
  simp only [hctm]
  exact check_generated_files_match_ok _ _ hdn

theorem line_directive_mem (ge gf out : String) (flags : List String) :
    "--line-directive=" ∈ gyb_command ge gf out false flags := by
  simp [gyb_command, line_directive_flags]

theorem generate_gyb_files_ok_inv (gyb : Gyb) (rm : Rm) (ge : String) (aSL : Bool)
    (w sw : World) (h : generate_gyb_files gyb rm ge aSL w = .ok sw) :
    ∃ log, generate_gyb_files_run gyb rm ge aSL w = .ok (sw, log) := by
  rw [generate_gyb_files] at h
  cases hrun : generate_gyb_files_run gyb rm ge aSL w with
  | error e =>
    rw [hrun] at h
    cases h
  | ok r =>
    obtain ⟨sw0, log0⟩ := r
    rw [hrun] at h
    simp only [Except.map] at h
    cases h
    exact ⟨log0, rfl⟩

/-- C10: the verification flow regenerates with source-location annotations
disabled unconditionally, so when verify reports Ok the committed generated
files are byte-identical to the annotation-free rendering — the render
command of every compared output carries the `--line-directive=` flag — with
no assumption about how the committed trees were produced. -/
theorem verify_uses_annotation_free (gyb : Gyb) (rm : Rm) (ge : String) (w : World)
    (hnd : ∀ t ∈ w.trees, t.listing.Nodup)
    (hok : ∀ t ∈ w.trees, ∀ f ∈ gyb_files t.listing,
      ∃ c, task_render gyb ge t.path false f = .ok c)
    (h : verify_generated_files gyb rm ge w = .ok ()) :
    ∀ t ∈ w.trees, ∀ f ∈ gyb_files t.listing,
      ¬strStartsWith (strDropRight f 4) "." = true →
      ∃ c, task_render gyb ge t.path false f = .ok c ∧
        "--line-directive=" ∈
          gyb_command ge (os_path_join t.path f) (strDropRight f 4) false [] ∧
        (getFile t.dest (strDropRight f 4)).map File.content = some c := by
  rw [verify_generated_files] at h
  cases hgen : generate_gyb_files gyb rm ge false (scratch_world w) with
  | error e =>
    rw [hgen] at h
    cases h
  | ok sw =>
    simp only [hgen] at h
    cases hct : check_trees_match (sw.trees.zip w.trees) with
    | error e =>
      rw [hct] at h
      cases h
    | ok u =>
      obtain ⟨log, hrun⟩ := generate_gyb_files_ok_inv gyb rm ge false (scratch_world w) sw hgen
      obtain ⟨tempA, nowA, hrS, hnS⟩ :=
        generate_run_cases gyb rm ge false (scratch_world w) sw log hrun
      simp only [scratch_world] at hrS
      have hndscr : ∀ t0 ∈ w.trees.map (fun t => (⟨t.path, t.listing, []⟩ : Tree)),
          t0.listing.Nodup := by
        intro t0 ht0
        rw [List.mem_map] at ht0
        obtain ⟨u2, hu2, rfl⟩ := ht0
        exact hnd u2 hu2
      have hcharS := run_helpers_char gyb rm ge false
        (w.trees.map (fun t => ⟨t.path, t.listing, []⟩)) w.temp w.now sw.trees tempA nowA
        log.futures hrS hndscr
      have hS2 : List.Forall₂
          (fun t ts => TreeGen gyb ge false ⟨t.path, t.listing, []⟩ ts) w.trees sw.trees :=
        List.forall₂_map_left_iff.1 hcharS
      have hS3 : List.Forall₂
          (fun ts t => TreeGen gyb ge false ⟨t.path, t.listing, []⟩ ts) sw.trees w.trees :=
        forall₂_flip_impl hS2 (fun a b _ _ r => r)
      intro t ht f hf hhid
      obtain ⟨ts, hzip, htgS⟩ := forall₂_zip_mem_right hS3 t ht
      have hdm : dirs_match ts.dest t.dest = true :=
        check_trees_match_mem _ hct (ts, t) hzip
      obtain ⟨c, hc⟩ := hok t ht f hf
      obtain ⟨_, _, hconts, _, hndps, _⟩ := htgS
      have hcS := hconts f hf c hc
      cases hgS : getFile ts.dest (strDropRight f 4) with
      | none =>
        rw [hgS] at hcS
        cases hcS
      | some v =>
        rw [hgS] at hcS
        have hvc : v.content = c := by simpa using hcS
        have hvS : getFile (visible ts.dest) (strDropRight f 4) = some v := by
          rw [getFile_visible, if_neg hhid, hgS]
        obtain ⟨u2, hu2, huc⟩ := dirs_match_getFile ts.dest t.dest hdm
          (strDropRight f 4) v hvS
        rw [getFile_visible, if_neg hhid] at hu2
        refine ⟨c, hc, line_directive_mem ge (os_path_join t.path f) (strDropRight f 4) [],
          ?_⟩
        rw [hu2]
        simp [huc, hvc]

/-- C4: running generate twice in a row with no template changes between the
runs leaves every destination tree literally identical — in particular every
destination file keeps its modification time — and the second run produces
only `Unchanged` synchronizer outcomes, in the pool futures as well as in the
base-kind expansion. Hypotheses: the listings have no duplicate entries and
the renderer succeeds on every discovered template (the first run already
succeeded, which covers the base-kind renders). -/
theorem generate_gyb_files_idempotent (gyb : Gyb) (rm : Rm) (ge : String) (aSL : Bool)
    (w w1 : World) (log1 : RunLog)
    (hnd : ∀ t ∈ w.trees, t.listing.Nodup)
    (hok : ∀ t ∈ w.trees, ∀ f ∈ gyb_files t.listing,
      ∃ c, task_render gyb ge t.path aSL f = .ok c)
    (h1 : generate_gyb_files_run gyb rm ge aSL w = .ok (w1, log1)) :
    ∃ temp2 now2 log2,
      generate_gyb_files_run gyb rm ge aSL w1 = .ok (⟨w1.trees, w1.nodes, temp2, now2⟩, log2) ∧
      (∀ r ∈ log2.futures, r.2 = .ok SyncOutcome.Unchanged) ∧
      (∀ oc ∈ log2.nodeOutcomes, oc = SyncOutcome.Unchanged) := by
  obtain ⟨temp1, now1, hr1, hn1⟩ := generate_run_cases gyb rm ge aSL w w1 log1 h1
  have hchar := run_helpers_char gyb rm ge aSL w.trees w.temp w.now w1.trees temp1 now1
    log1.futures hr1 hnd
  -- stability hypotheses for every tree of the second run
  have hstab : ∀ t1 ∈ w1.trees,
      (∀ n ∈ names t1.dest, strEndsWith n ".swift" = true → (n ++ ".gyb") ∈ t1.listing) ∧
      (∀ f ∈ gyb_files t1.listing, ∃ c df, task_render gyb ge t1.path aSL f = .ok c ∧
        getFile t1.dest (strDropRight f 4) = some df ∧ df.content = c) := by
    intro t1 ht1
    obtain ⟨t, ht, htg⟩ := forall₂_mem_right hchar t1 ht1
    obtain ⟨hpath, hlist, hcont, hkeep, hndp, hnames⟩ := htg
    have hokt := hok t ht
    constructor
    · intro n hn hs
      rw [hlist]
      rcases (hnames hokt n).1 hn with hout | hsurv
      · exact template_mem_of_mem_outputs t.listing n hout
      · exact hsurv.2 hs
    · intro f hf
      rw [hlist] at hf
      obtain ⟨c, hc⟩ := hokt f hf
      have hcf := hcont f hf c hc
      cases hg : getFile t1.dest (strDropRight f 4) with
      | none =>
        rw [hg] at hcf
        cases hcf
      | some df =>
        rw [hg] at hcf
        refine ⟨c, df, ?_, rfl, by simpa using hcf⟩
        rw [hpath]
        exact hc
  obtain ⟨tempA, nowA, futs2, hr2, hfuts2⟩ :=
    run_helpers_stable gyb rm ge aSL w1.trees w1.temp w1.now hstab
  -- stability hypotheses for the syntax-node destination
  obtain ⟨hncont, hnnames, hnnodup, hnkeep⟩ :=
    nodes_char gyb rm ge aSL w.nodes temp1 now1 w1.nodes w1.temp w1.now log1.nodeOutcomes hn1
  have hnkept : ∀ n ∈ names w1.nodes,
      strEndsWith n ".swift" = true → n ∈ BASE_KIND_FILES.map Prod.snd := by
    intro n hn hs
    rcases (hnnames n).1 hn with hout | hsurv
    · exact hout
    · exact hsurv.2 hs
  have hnst : ∀ p ∈ BASE_KIND_FILES, ∃ c df, kind_render gyb ge aSL p = .ok c ∧
      getFile w1.nodes p.2 = some df ∧ df.content = c := by
    intro p hp
    obtain ⟨c, hc, hcf⟩ := hncont p hp
    cases hg : getFile w1.nodes p.2 with
    | none =>
      rw [hg] at hcf
      cases hcf
    | some df =>
      rw [hg] at hcf
      exact ⟨c, df, hc, rfl, by simpa using hcf⟩
  obtain ⟨tempB, nowB, ocs2, hn2, hocs2⟩ :=
    nodes_stable gyb rm ge aSL w1.nodes tempA nowA hnkept hnst
  exact ⟨tempB, nowB, ⟨futs2, ocs2⟩,
    generate_run_eq gyb rm ge aSL w1 w1.trees tempA nowA futs2 hr2
      w1.nodes tempB nowB ocs2 hn2, hfuts2, hocs2⟩

theorem executor_names_subset (gyb : Gyb) (ge path : String) (aSL : Bool) :
    ∀ (fs : List String) (st : SyncState) (n : String),
    n ∈ names (executor_map_gyb gyb ge path aSL fs st).1.dest →
    n ∈ fs.map (fun f => strDropRight f 4) ∨ n ∈ names st.dest := by
  intro fs
  induction fs with
  | nil =>
    intro st n h
    exact Or.inr h
  | cons f fs ih =>
    intro st n h
    rw [executor_map_gyb] at h
    cases hg : gyb (gyb_command ge (os_path_join path f) (strDropRight f 4) aSL []) with
    | error e =>
      simp only [generate_gyb_file, generate_single_gyb_file, hg] at h
      rcases ih st n h with h1 | h1
      · exact Or.inl (List.mem_cons_of_mem _ h1)
      · exact Or.inr h1
    | ok c =>
      simp only [generate_gyb_file, generate_single_gyb_file, hg] at h
      rcases ih _ n h with h1 | h1
      · exact Or.inl (List.mem_cons_of_mem _ h1)
      · rcases (mem_names_setFile _ _ _ _).1 h1 with h2 | h2
        · exact Or.inl (by rw [List.map_cons, h2]; exact List.mem_cons_self _ _)
        · exact Or.inr h2

/-- C2 (amended): when the stale-output pruner fails to delete an individual
orphaned file, the `CalledProcessError` raised by `check_call(["rm", ...])`
propagates out of the helper before any generation is dispatched: the whole
generate run fails with that error and the current template set is not
generated. -/
theorem prune_failure_aborts_run (gyb : Gyb) (rm : Rm) (ge : String) (aSL : Bool)
    (t : Tree) (ts : List Tree) (nodes temp : Dir) (now : Nat) (e : CalledProcessError)
    (h : clear_gyb_files_from_previous_run rm t.listing t.dest = .error e) :
    generate_gyb_files gyb rm ge aSL ⟨t :: ts, nodes, temp, now⟩ = .error e := by
  have hrh : run_helpers gyb rm ge aSL (t :: ts) temp now = .error e := by
    rw [run_helpers, helper_prune_error gyb rm ge aSL t temp now e h]
  simp only [generate_gyb_files, generate_gyb_files_run, hrh, Except.map]

/-- C5: on a successful render, the synchronizer of
`generate_single_gyb_file` compares the scratch file and the destination file
by content checksum and copies scratch over destination (with a fresh
modification time) only when they differ, an absent destination counting as
differing; when the checksums are equal the destination directory — every
file and every modification time in it — is left exactly as it was; no
destination entry other than the output file is ever touched. -/
theorem generate_single_gyb_file_sync (gyb : Gyb) (ge gf out : String) (aSL : Bool)
    (flags : List String) (st : SyncState) (c : String)
    (hc : gyb (gyb_command ge gf out aSL flags) = .ok c) :
    (getFile st.dest out = none →
      generate_single_gyb_file gyb ge gf out aSL flags st =
        .ok (⟨setFile st.temp out ⟨c, st.now⟩,
              setFile st.dest out ⟨c, st.now + 1⟩, st.now + 2⟩, .Changed)) ∧
    (∀ d, getFile st.dest out = some d → d.content = c →
      generate_single_gyb_file gyb ge gf out aSL flags st =
        .ok (⟨setFile st.temp out ⟨c, st.now⟩, st.dest, st.now + 2⟩, .Unchanged)) ∧
    (∀ d, getFile st.dest out = some d → d.content ≠ c →
      generate_single_gyb_file gyb ge gf out aSL flags st =
        .ok (⟨setFile st.temp out ⟨c, st.now⟩,
              setFile st.dest out ⟨c, st.now + 1⟩, st.now + 2⟩, .Changed)) ∧
    (∀ st1 oc, generate_single_gyb_file gyb ge gf out aSL flags st = .ok (st1, oc) →
      ∀ n, n ≠ out → getFile st1.dest n = getFile st.dest n) := by
  refine ⟨?_, ?_, ?_, ?_⟩
  · intro hnone
    simp only [generate_single_gyb_file, hc, hnone, rsync_absent]
  · intro d hd hdc
    simp only [generate_single_gyb_file, hc, hd, rsync_unchanged ⟨c, st.now⟩ d (st.now + 1) hdc]
    rw [setFile_self st.dest out d hd]
  · intro d hd hdc
    simp only [generate_single_gyb_file, hc, hd, rsync_differs ⟨c, st.now⟩ d (st.now + 1) hdc]
  · intro st1 oc h n hn
    simp only [generate_single_gyb_file, hc] at h
    cases h
    exact getFile_setFile_ne _ _ _ _ hn

/-- C6 (amended): the generic pruner deletes exactly the `.swift` files whose
template no longer exists in the sources directory and retains every file
whose template exists, keeping its content and modification time (files not
ending in `.swift` are never touched, which is where the claim as stated
fails); in particular, after a template was deleted, a completed next helper
run leaves no `.swift` output for it in the destination. -/
theorem clear_gyb_files_spec (rm : Rm) (sources : List String) (dest : Dir)
    (hrm : ∀ f, rm f = .ok ()) :
    ∃ dest1, clear_gyb_files_from_previous_run rm sources dest = .ok dest1 ∧
      (∀ n, n ∈ names dest1 ↔
        n ∈ names dest ∧ (strEndsWith n ".swift" = true → (n ++ ".gyb") ∈ sources)) ∧
      (∀ n, (strEndsWith n ".swift" = true → (n ++ ".gyb") ∈ sources) →
        getFile dest1 n = getFile dest n) ∧
      (∀ (gyb : Gyb) (ge path : String) (aSL : Bool) (temp : Dir) (now : Nat)
          (t1 : Tree) (temp1 : Dir) (now1 : Nat)
          (log : List (String × Except CalledProcessError SyncOutcome)) (n : String),
        generate_gyb_files_helper_run gyb rm ge aSL ⟨path, sources, dest⟩ temp now =
          .ok ((t1, temp1, now1), log) →
        strEndsWith n ".swift" = true → (n ++ ".gyb") ∉ sources →
        n ∉ names t1.dest) := by
  obtain ⟨dest1, hd1⟩ := clear_loop_ok rm sources hrm (names dest) dest
  have hd1full : clear_gyb_files_from_previous_run rm sources dest = .ok dest1 := hd1
  refine ⟨dest1, hd1full, ?_, ?_, ?_⟩
  · intro n
    exact clear_names_iff rm sources dest dest1 hd1full n
  · intro n hk
    exact clear_loop_keeps rm sources (names dest) dest dest1 hd1 n hk
  · intro gyb ge path aSL temp now t1 temp1 now1 log n hh hs ht hmem
    rw [helper_run_eq gyb rm ge aSL ⟨path, sources, dest⟩ temp now dest1 hd1full] at hh
    cases hh
    rcases executor_names_subset gyb ge path aSL (gyb_files sources) ⟨temp, dest1, now⟩ n
        hmem with h1 | h1
    · rw [List.mem_map] at h1
      obtain ⟨f, hf, rfl⟩ := h1
      rw [mem_gyb_files] at hf
      exact ht (by rw [strDropRight_gyb_append f hf.2]; exact hf.1)
    · rw [clear_names_iff rm sources dest dest1 hd1full n] at h1
      exact ht (h1.2 hs)

/-- C7: a file whose name is in the fixed allow-list `BASE_KIND_FILES` is
never deleted by the pruning step of the syntax-node destination — the only
pruning step that runs over that directory — whatever templates exist and
whatever the `rm` collaborator does. -/
theorem allow_list_never_pruned (rm : Rm) (ns : List String) (d d1 : Dir) (n : String)
    (hn : n ∈ BASE_KIND_FILES.map Prod.snd)
    (h : prune_syntax_node_files_loop rm ns d = .ok d1)
    (hmem : n ∈ names d) : n ∈ names d1 := by
  rw [mem_names_iff_getFile] at hmem ⊢
  rw [prune_nodes_keeps rm ns d d1 h n (fun _ => hn)]
  exact hmem

/-- C8: the multi-output template is expanded once per base kind with a
distinct `-DEMIT_KIND` flag, the six (template, flag-set) pairs map to six
pairwise distinct output file names, after a successful expansion each output
file holds exactly the content rendered for its flag set, and every output
name is in the allow-list, so the syntax-node pruning step never treats it as
orphaned. -/
theorem base_kind_expansion_spec (gyb : Gyb) (rm : Rm) (ge : String) (aSL : Bool)
    (nodes temp : Dir) (now : Nat) (nodes2 temp2 : Dir) (now2 : Nat)
    (ocs : List SyncOutcome)
    (h : generate_syntax_node_template_gyb_files gyb rm ge aSL nodes temp now =
      .ok ((nodes2, temp2, now2), ocs)) :
    (BASE_KIND_FILES.map Prod.fst).Nodup ∧
    (BASE_KIND_FILES.map Prod.snd).Nodup ∧
    (∀ p ∈ BASE_KIND_FILES, ∃ c, kind_render gyb ge aSL p = .ok c ∧
      (getFile nodes2 p.2).map File.content = some c ∧
      ("-DEMIT_KIND=" ++ p.1) ∈
        gyb_command ge SYNTAX_NODES_TEMPLATE p.2 aSL ["-DEMIT_KIND=" ++ p.1]) ∧
    (∀ p ∈ BASE_KIND_FILES, ∀ (ns : List String) (d d1 : Dir),
      prune_syntax_node_files_loop rm ns d = .ok d1 →
      p.2 ∈ names d → p.2 ∈ names d1) := by
  obtain ⟨hcont, _, _, _⟩ :=
    nodes_char gyb rm ge aSL nodes temp now nodes2 temp2 now2 ocs h
  refine ⟨by decide, by decide, ?_, ?_⟩
  · intro p hp
    obtain ⟨c, hc, hg⟩ := hcont p hp
    refine ⟨c, hc, hg, ?_⟩
    simp [gyb_command, line_directive_flags]
  · intro p hp ns d d1 hpr hmem
    exact allow_list_never_pruned rm ns d d1 p.2 (List.mem_map_of_mem Prod.snd hp) hpr hmem

/-- C9 (amended): the scratch location is `tempfile.gettempdir()` — one
process-wide directory, the same in every helper invocation and every run:
the render command of each template writes its output to that shared path,
and when the helper returns, the scratch file is still there with the
rendered content — the run performs no cleanup of the scratch location. -/
theorem scratch_shared_not_cleaned (gyb : Gyb) (rm : Rm) (ge : String) (aSL : Bool)
    (t : Tree) (temp : Dir) (now : Nat) (t1 : Tree) (temp1 : Dir) (now1 : Nat)
    (log : List (String × Except CalledProcessError SyncOutcome))
    (hnd : t.listing.Nodup)
    (h : generate_gyb_files_helper_run gyb rm ge aSL t temp now = .ok ((t1, temp1, now1), log))
    (f : String) (hf : f ∈ gyb_files t.listing) (c : String)
    (hc : task_render gyb ge t.path aSL f = .ok c) :
    os_path_join tempfile_gettempdir (strDropRight f 4) ∈
      gyb_command ge (os_path_join t.path f) (strDropRight f 4) aSL [] ∧
    (getFile temp1 (strDropRight f 4)).map File.content = some c := by
  constructor
  · simp [gyb_command]
  · exact helper_temp_content gyb rm ge aSL t temp now t1 temp1 now1 log hnd h f hf c hc

/-! ### Concrete scenarios -/

/-- A renderer that succeeds on every command, with the full command line as
the rendered content, so distinct flag sets yield distinct content. -/
def renCmd : Gyb := fun cmd => .ok (String.intercalate " " cmd)

/-- A renderer that exits non-zero exactly on the template `S/b.swift.gyb`. -/
def renFailB : Gyb := fun cmd =>
  if "S/b.swift.gyb" ∈ cmd then .error ⟨cmd, "gyb crashed"⟩
  else .ok (String.intercalate " " cmd)

/-- An `rm` collaborator that always succeeds. -/
def rmOK : Rm := fun _ => .ok ()

/-- An `rm` collaborator that fails with a permission error on `old.swift`. -/
def rmFailOld : Rm := fun f =>
  if f = "old.swift" then .error ⟨["rm", "old.swift"], "permission denied"⟩ else .ok ()

/-- A world with one source tree, one template, and an empty destination. -/
def wOne : World := ⟨[⟨"S", ["a.swift.gyb"], []⟩], [], [], 0⟩

/-- A world with two templates, of which `b.swift.gyb` will fail to render. -/
def wTwo : World := ⟨[⟨"S", ["a.swift.gyb", "b.swift.gyb"], []⟩], [], [], 0⟩

/-- A world whose destination holds one orphaned `.swift` file. -/
def wOrphan : World := ⟨[⟨"S", ["a.swift.gyb"], [("old.swift", ⟨"stale", 0⟩)]⟩], [], [], 0⟩

/-- The run of generate over `wOne` and its resulting world and log. -/
def runOne : Except CalledProcessError (World × RunLog) :=
  generate_gyb_files_run renCmd rmOK "gyb" false wOne

def w1One : World := (runOne.toOption.getD (⟨[], [], [], 0⟩, ⟨[], []⟩)).1

def log1One : RunLog := (runOne.toOption.getD (⟨[], [], [], 0⟩, ⟨[], []⟩)).2

def t1One : Tree := w1One.trees.getD 0 ⟨"", [], []⟩

/-! ### Per-claim concrete theorems -/

/-- C1: with two templates of which exactly one fails to render, the other
output is still rendered and synchronized, and the failing task's Future
holds a `CalledProcessError` carrying the exact command and captured output —
but the run returns success: line 233 never consumes the `executor.map`
iterator, so the exception is never re-raised and the caller reports no
render failure. The surrounding `try/except CalledProcessError` handler in
`generate_source_code_command` documents the intent that such failures be
reported; the pool path silently swallows them. -/
theorem render_failure_silently_swallowed :
    (generate_gyb_files renFailB rmOK "gyb" false wTwo).isOk = true ∧
    (generate_gyb_files_run renFailB rmOK "gyb" false wTwo).map
        (fun r => (r.1.trees.map (fun t => getFile t.dest "a.swift"),
                   r.1.trees.map (fun t => getFile t.dest "b.swift"),
                   r.2.futures)) =
      .ok ([some ⟨"python3 gyb S/a.swift.gyb -o /tmp/a.swift --line-directive=", 1⟩],
           [none],
           [("a.swift.gyb", .ok .Changed),
            ("b.swift.gyb", .error ⟨["python3", "gyb", "S/b.swift.gyb", "-o",
              "/tmp/b.swift", "--line-directive="], "gyb crashed"⟩)]) :=
  ⟨by decide, by decide⟩

/-- C2 counterexample: a single failed delete of one orphaned file makes the
whole run fail with that delete error — generation does not proceed — which
contradicts the claim that an individual delete failure is reported but
non-fatal. -/
theorem delete_failure_fails_run :
    generate_gyb_files renCmd rmFailOld "gyb" false wOrphan =
      .error ⟨["rm", "old.swift"], "permission denied"⟩ := by decide

/-- Witness for the amended C2 at a concrete world. -/
theorem prune_failure_aborts_run_witness :
    generate_gyb_files renCmd rmFailOld "gyb" false
      ⟨[⟨"S", ["a.swift.gyb"], [("old.swift", ⟨"stale", 0⟩)]⟩], [], [], 0⟩ =
      .error ⟨["rm", "old.swift"], "permission denied"⟩ :=
  prune_failure_aborts_run renCmd rmFailOld "gyb" false
    ⟨"S", ["a.swift.gyb"], [("old.swift", ⟨"stale", 0⟩)]⟩ [] [] [] 0
    ⟨["rm", "old.swift"], "permission denied"⟩ (by decide)

/-- C3 counterexample: generate with source-location annotations enabled
succeeds, but verify immediately afterwards on the same unchanged source tree
does not report Ok, because verify regenerates with annotations disabled and
the rendered bytes differ. -/
theorem verify_after_annotated_generate_fails :
    (generate_gyb_files renCmd rmOK "gyb" true wOne).isOk = true ∧
    (generate_gyb_files renCmd rmOK "gyb" true wOne).bind
      (verify_generated_files renCmd rmOK "gyb") ≠ .ok () :=
  ⟨by decide, by decide⟩

/-- Witness for the amended C3 at a concrete world. -/
theorem verify_after_generate_ok_witness :
    verify_generated_files renCmd rmOK "gyb" w1One = .ok () :=
  verify_after_generate_ok renCmd rmOK "gyb" wOne w1One log1One
    (by decide) (by decide) (by decide)
    (fun t _ f _ => ⟨String.intercalate " "
      (gyb_command "gyb" (os_path_join t.path f) (strDropRight f 4) false []), rfl⟩)
    (by decide) (by decide) rfl

/-- Witness for C4 at a concrete world. -/
theorem generate_gyb_files_idempotent_witness :
    ∃ temp2 now2 log2,
      generate_gyb_files_run renCmd rmOK "gyb" false w1One =
        .ok (⟨w1One.trees, w1One.nodes, temp2, now2⟩, log2) ∧
      (∀ r ∈ log2.futures, r.2 = .ok SyncOutcome.Unchanged) ∧
      (∀ oc ∈ log2.nodeOutcomes, oc = SyncOutcome.Unchanged) :=
  generate_gyb_files_idempotent renCmd rmOK "gyb" false wOne w1One log1One
    (by decide)
    (fun t _ f _ => ⟨String.intercalate " "
      (gyb_command "gyb" (os_path_join t.path f) (strDropRight f 4) false []), rfl⟩)
    rfl

/-- The content `renCmd` renders for the output `x.swift` of template `T`. -/
def cXsw : String := String.intercalate " " (gyb_command "gyb" "T" "x.swift" false [])

/-- Witness for C5 covering the absent, equal and differing destination
cases, plus the frame condition, at concrete states. -/
theorem generate_single_gyb_file_sync_witness :
    (generate_single_gyb_file renCmd "gyb" "T" "x.swift" false [] ⟨[], [], 0⟩ =
      .ok (⟨[("x.swift", ⟨cXsw, 0⟩)], [("x.swift", ⟨cXsw, 1⟩)], 2⟩, .Changed)) ∧
    (generate_single_gyb_file renCmd "gyb" "T" "x.swift" false []
        ⟨[], [("x.swift", ⟨cXsw, 5⟩)], 9⟩ =
      .ok (⟨[("x.swift", ⟨cXsw, 9⟩)], [("x.swift", ⟨cXsw, 5⟩)], 11⟩, .Unchanged)) ∧
    (generate_single_gyb_file renCmd "gyb" "T" "x.swift" false []
        ⟨[], [("x.swift", ⟨"other", 5⟩)], 9⟩ =
      .ok (⟨[("x.swift", ⟨cXsw, 9⟩)], [("x.swift", ⟨cXsw, 10⟩)], 11⟩, .Changed)) ∧
    getFile [("x.swift", ⟨cXsw, 1⟩)] "y.swift" = getFile ([] : Dir) "y.swift" :=
  ⟨(generate_single_gyb_file_sync renCmd "gyb" "T" "x.swift" false []
      ⟨[], [], 0⟩ cXsw rfl).1 rfl,
   (generate_single_gyb_file_sync renCmd "gyb" "T" "x.swift" false []
      ⟨[], [("x.swift", ⟨cXsw, 5⟩)], 9⟩ cXsw rfl).2.1 ⟨cXsw, 5⟩ rfl rfl,
   (generate_single_gyb_file_sync renCmd "gyb" "T" "x.swift" false []
      ⟨[], [("x.swift", ⟨"other", 5⟩)], 9⟩ cXsw rfl).2.2.1 ⟨"other", 5⟩ rfl (by decide),
   (generate_single_gyb_file_sync renCmd "gyb" "T" "x.swift" false []
      ⟨[], [], 0⟩ cXsw rfl).2.2.2
     ⟨[("x.swift", ⟨cXsw, 0⟩)], [("x.swift", ⟨cXsw, 1⟩)], 2⟩ .Changed (by decide)
     "y.swift" (by decide)⟩

/-- C6 counterexample: a stale file not ending in `.swift`, with no
corresponding template and belonging to no allow-list, survives pruning
untouched, although the claim requires every such file to be deleted. -/
theorem prune_retains_non_swift_orphan :
    clear_gyb_files_from_previous_run rmOK [] [("stale.txt", ⟨"junk", 0⟩)] =
      .ok [("stale.txt", ⟨"junk", 0⟩)] := by decide

/-- A destination directory holding a current output, a `.swift` orphan and a
non-`.swift` stale file. -/
def destC6 : Dir :=
  [("a.swift", ⟨"keep", 3⟩), ("old.swift", ⟨"orphan", 4⟩), ("stale.txt", ⟨"junk", 5⟩)]

/-- Witness for the amended C6 at a concrete destination. -/
theorem clear_gyb_files_spec_witness :
    ∃ dest1, clear_gyb_files_from_previous_run rmOK ["a.swift.gyb"] destC6 = .ok dest1 ∧
      (∀ n, n ∈ names dest1 ↔
        n ∈ names destC6 ∧
          (strEndsWith n ".swift" = true → (n ++ ".gyb") ∈ ["a.swift.gyb"])) ∧
      (∀ n, (strEndsWith n ".swift" = true → (n ++ ".gyb") ∈ ["a.swift.gyb"]) →
        getFile dest1 n = getFile destC6 n) ∧
      (∀ (gyb : Gyb) (ge path : String) (aSL : Bool) (temp : Dir) (now : Nat)
          (t1 : Tree) (temp1 : Dir) (now1 : Nat)
          (log : List (String × Except CalledProcessError SyncOutcome)) (n : String),
        generate_gyb_files_helper_run gyb rmOK ge aSL ⟨path, ["a.swift.gyb"], destC6⟩
            temp now = .ok ((t1, temp1, now1), log) →
        strEndsWith n ".swift" = true → (n ++ ".gyb") ∉ ["a.swift.gyb"] →
        n ∉ names t1.dest) :=
  clear_gyb_files_spec rmOK ["a.swift.gyb"] destC6 (fun _ => rfl)

/-- Witness for C7 at a concrete destination. -/
theorem allow_list_never_pruned_witness :
    "SyntaxDeclNodes.swift" ∈ names [("SyntaxDeclNodes.swift", ⟨"nodes", 0⟩)] :=
  allow_list_never_pruned rmOK ["SyntaxDeclNodes.swift"]
    [("SyntaxDeclNodes.swift", ⟨"nodes", 0⟩)] [("SyntaxDeclNodes.swift", ⟨"nodes", 0⟩)]
    "SyntaxDeclNodes.swift" (by decide) (by decide) (by decide)

/-- The base-kind expansion run from an empty `syntax_nodes` destination. -/
def nodesRunOne : Except CalledProcessError ((Dir × Dir × Nat) × List SyncOutcome) :=
  generate_syntax_node_template_gyb_files renCmd rmOK "gyb" false [] [] 0

def nodes2One : Dir := (nodesRunOne.toOption.getD (([], [], 0), [])).1.1

def nodesTemp2One : Dir := (nodesRunOne.toOption.getD (([], [], 0), [])).1.2.1

def nodesNow2One : Nat := (nodesRunOne.toOption.getD (([], [], 0), [])).1.2.2

def nodesOcsOne : List SyncOutcome := (nodesRunOne.toOption.getD (([], [], 0), [])).2

/-- Witness for C8 on a concrete expansion run. -/
theorem base_kind_expansion_spec_witness :
    (BASE_KIND_FILES.map Prod.fst).Nodup ∧
    (BASE_KIND_FILES.map Prod.snd).Nodup ∧
    (∀ p ∈ BASE_KIND_FILES, ∃ c, kind_render renCmd "gyb" false p = .ok c ∧
      (getFile nodes2One p.2).map File.content = some c ∧
      ("-DEMIT_KIND=" ++ p.1) ∈
        gyb_command "gyb" SYNTAX_NODES_TEMPLATE p.2 false ["-DEMIT_KIND=" ++ p.1]) ∧
    (∀ p ∈ BASE_KIND_FILES, ∀ (ns : List String) (d d1 : Dir),
      prune_syntax_node_files_loop rmOK ns d = .ok d1 →
      p.2 ∈ names d → p.2 ∈ names d1) :=
  base_kind_expansion_spec renCmd rmOK "gyb" false [] [] 0 nodes2One nodesTemp2One
    nodesNow2One nodesOcsOne rfl

/-- C9 counterexample: the scratch file written by a run is still present in
the shared temporary directory when the run ends (no cleanup), and a second
run writes to the very same scratch path, overwriting it — the scratch
location is neither private to one run nor cleaned up. -/
theorem scratch_persists_across_runs :
    ((generate_gyb_files renCmd rmOK "gyb" false wOne).map
      (fun w => (getFile w.temp "a.swift").map File.mtime) = .ok (some 0)) ∧
    (((generate_gyb_files renCmd rmOK "gyb" false wOne).bind
        (generate_gyb_files renCmd rmOK "gyb" false)).map
      (fun w => (getFile w.temp "a.swift").map File.mtime) = .ok (some 14)) :=
  ⟨by decide, by decide⟩

/-- One helper invocation over a single template, with its results. -/
def helperRunOne : Except CalledProcessError
    ((Tree × Dir × Nat) × List (String × Except CalledProcessError SyncOutcome)) :=
  generate_gyb_files_helper_run renCmd rmOK "gyb" false ⟨"S", ["a.swift.gyb"], []⟩ [] 0

def helperT1 : Tree := (helperRunOne.toOption.getD ((⟨"", [], []⟩, [], 0), [])).1.1

def helperTemp1 : Dir := (helperRunOne.toOption.getD ((⟨"", [], []⟩, [], 0), [])).1.2.1

def helperNow1 : Nat := (helperRunOne.toOption.getD ((⟨"", [], []⟩, [], 0), [])).1.2.2

def helperLog1 : List (String × Except CalledProcessError SyncOutcome) :=
  (helperRunOne.toOption.getD ((⟨"", [], []⟩, [], 0), [])).2

/-- Witness for the amended C9 at a concrete helper run. -/
theorem scratch_shared_not_cleaned_witness :
    os_path_join tempfile_gettempdir (strDropRight "a.swift.gyb" 4) ∈
      gyb_command "gyb" (os_path_join "S" "a.swift.gyb")
        (strDropRight "a.swift.gyb" 4) false [] ∧
    (getFile helperTemp1 (strDropRight "a.swift.gyb" 4)).map File.content =
      some (String.intercalate " " (gyb_command "gyb" (os_path_join "S" "a.swift.gyb")
        (strDropRight "a.swift.gyb" 4) false [])) :=
  scratch_shared_not_cleaned renCmd rmOK "gyb" false ⟨"S", ["a.swift.gyb"], []⟩ [] 0
    helperT1 helperTemp1 helperNow1 helperLog1 (by decide) rfl
    "a.swift.gyb" (by decide) _ rfl

/-- Witness for C10 at a concrete world. -/
theorem verify_uses_annotation_free_witness :
    ∃ c, task_render renCmd "gyb" t1One.path false "a.swift.gyb" = .ok c ∧
      "--line-directive=" ∈ gyb_command "gyb" (os_path_join t1One.path "a.swift.gyb")
        (strDropRight "a.swift.gyb" 4) false [] ∧
      (getFile t1One.dest (strDropRight "a.swift.gyb" 4)).map File.content = some c :=
  verify_uses_annotation_free renCmd rmOK "gyb" w1One (by decide)
    (fun t _ f _ => ⟨String.intercalate " "
      (gyb_command "gyb" (os_path_join t.path f) (strDropRight f 4) false []), rfl⟩)
    (by decide) t1One (by decide) "a.swift.gyb" (by decide) (by decide)

end BuildScript
